import Mathlib

/-!
Verification development for the parker comic-library server's media pipeline.

The Python sources are shallowly embedded:
* `app/services/archive.py` — `ComicArchive.get_pages` page filtering and ordering
  (cover priority, separator replacement, natural sort split);
* `app/services/images.py` — `ImageService.get_page_image` (fast path, slow path,
  transcode logic, error fallbacks);
* `app/services/scan_manager.py` — `ScanManager` (FIFO scan queue, dedup, recovery);
* `app/services/thumbnailer.py` — sequential and parallel thumbnail pipelines.

Python strings are modelled as lists of Unicode code points (`List Nat`); the
ASCII fragment of `str.lower`, `str.isdigit` and the regexes is modelled exactly
(the archives' entry names exercised by the spec are ASCII).  Pillow is external
to the repository; it is modelled by an abstract image value (dimensions, colour
mode, an abstract content tag and an encodability flag), with `Image.thumbnail`'s
aspect-preserving bound reproduced arithmetically.
-/

namespace Parker

/-! ### Code-point string model -/

/-- A Python string as its list of Unicode code points. -/
def codes (s : String) : List Nat := s.toList.map Char.toNat

/-- ASCII decimal digit test (`str.isdigit` / regex `\d`, ASCII fragment). -/
def isDig (n : Nat) : Bool := decide (48 ≤ n ∧ n ≤ 57)

/-- One code point of `str.lower()` (ASCII fragment: `A`-`Z` shift to `a`-`z`). -/
def pyLower1 (n : Nat) : Nat := if 65 ≤ n ∧ n ≤ 90 then n + 32 else n

/-- `text.lower()` on code points. -/
def lowerCodes (t : List Nat) : List Nat := t.map pyLower1

/-- One code point of `text.replace('-', '~').replace('_', '~')`
(`-` = 45, `_` = 95, `~` = 126). -/
def sepRep1 (n : Nat) : Nat := if n = 45 ∨ n = 95 then 126 else n

/-- Word-character test for the regex `\b` boundary (`\w`, ASCII fragment:
letters, digits, underscore). -/
def isWordChar (n : Nat) : Bool :=
  isDig n || decide (65 ≤ n ∧ n ≤ 90) || decide (97 ≤ n ∧ n ≤ 122) || decide (n = 95)

/-! ### `re.search(r'\b(fc|cover|front)\b', text)` -/

/-- If `w` is a leading fragment of `t`, return the remainder of `t`. -/
def dropWord (w t : List Nat) : Option (List Nat) :=
  match w, t with
  | [], t => some t
  | _ :: _, [] => none
  | c :: w', d :: t' => if c = d then dropWord w' t' else none

/-- Does one of the alternation's words match at the start of `t`, with a word
boundary on both sides?  `prev` is the code point just before `t` (if any).
All three words consist of word characters, so `\b` holds on a side iff the
adjacent character is absent or not a word character. -/
def coverWordAt (prev : Option Nat) (t : List Nat) : Bool :=
  [codes "fc", codes "cover", codes "front"].any fun w =>
    match dropWord w t with
    | some rest =>
        (match prev with | none => true | some p => !isWordChar p) &&
        (match rest.head? with | none => true | some h => !isWordChar h)
    | none => false

/-- Scan all start positions, i.e. `re.search` of `\b(fc|cover|front)\b`. -/
def coverScan (prev : Option Nat) : List Nat → Bool
  | [] => false
  | c :: rest => coverWordAt prev (c :: rest) || coverScan (some c) rest

/-! ### `re.split(r'(\d+)', text)` with `int` conversion (natural-sort key) -/

/-- A fragment of the natural-sort key: a text run or a digit run (kept as its
digit list while building; compared through its integer value). -/
inductive RawPart where
  | s (t : List Nat)
  | d (ds : List Nat)
deriving DecidableEq, Repr

/-- A fragment of the final sort key, mirroring
`[int(c) if c.isdigit() else c for c in re.split(r'(\d+)', text)]`:
Python stores `int(c)` for captured digit runs. -/
inductive NatPart where
  | s (t : List Nat)
  | n (v : Nat)
deriving DecidableEq, Repr

/-- `int` of a digit run (leading zeros allowed). -/
def digitsVal (ds : List Nat) : Nat := ds.foldl (fun a c => 10 * a + (c - 48)) 0

/-- Prepend a non-digit code point to a split-part list (extends the leading
text fragment). `re.split` output always starts with a (possibly empty) text
fragment, so the fallback branch never fires on `splitRaw` values. -/
def consText (c : Nat) : List RawPart → List RawPart
  | .s t :: rest => .s (c :: t) :: rest
  | parts => .s [c] :: parts

/-- Prepend a digit code point: extend the digit run that immediately follows an
empty leading text fragment, otherwise open a fresh digit run. -/
def consDigit (c : Nat) : List RawPart → List RawPart
  | .s [] :: .d ds :: rest => .s [] :: .d (c :: ds) :: rest
  | parts => .s [] :: .d [c] :: parts

/-- `re.split(r'(\d+)', text)`: alternating text fragments and maximal digit
runs, starting and ending with a (possibly empty) text fragment. -/
def splitRaw : List Nat → List RawPart
  | [] => [.s []]
  | c :: rest => if isDig c then consDigit c (splitRaw rest) else consText c (splitRaw rest)

/-- Convert a built split into the key fragments Python stores
(`int(c)` for digit runs). -/
def rawToPart : RawPart → NatPart
  | .s t => .s t
  | .d ds => .n (digitsVal ds)

/-- The `natural_parts` component of `sort_key`. -/
def natSplit (t : List Nat) : List NatPart := (splitRaw t).map rawToPart

/-! ### Comparisons (Python `<` on the sort keys) -/

/-- Three-way comparison of naturals (Python `int` comparison). -/
def natCmp (a b : Nat) : Ordering :=
  if a < b then .lt else if b < a then .gt else .eq

/-- Lexicographic comparison of lists given an element comparison
(Python list and str comparison: a strict leading fragment is smaller;
`Ordering.then` is "compare heads, tie-break with the tails"). -/
def listCmp (c : α → α → Ordering) : List α → List α → Ordering
  | [], [] => .eq
  | [], _ :: _ => .lt
  | _ :: _, [] => .gt
  | a :: as, b :: bs => (c a b).then (listCmp c as bs)

/-- Comparison of key fragments.  In `re.split` output, fragments at equal
positions always have the same constructor (text at even, digits at odd
indices), so the cross-constructor cases are never reached when comparing two
`natSplit` keys; Python would raise `TypeError` there.  We order them
`s < n` to stay total. -/
def partCmp : NatPart → NatPart → Ordering
  | .s t, .s t' => listCmp natCmp t t'
  | .n v, .n v' => natCmp v v'
  | .s _, .n _ => .lt
  | .n _, .s _ => .gt

/-- Comparison of full sort keys `(is_cover, natural_parts)`
(Python tuple comparison). -/
def keyCmp (a b : Nat × List NatPart) : Ordering :=
  (natCmp a.1 b.1).then (listCmp partCmp a.2 b.2)

/-! ### `ComicArchive.get_pages` -/

/-- `sort_key` from `ComicArchive.get_pages`: lowercase, cover priority from the
whole-word regex, separator replacement, then the natural-sort split. -/
def sort_key (filename : String) : Nat × List NatPart :=
  let text := lowerCodes (codes filename)
  let is_cover := if coverScan none text then 0 else 1
  let text2 := text.map sepRep1
  (is_cover, natSplit text2)

/-- `key(a) <= key(b)` as used by the (stable, ascending) `list.sort`. -/
def pageLe (a b : String) : Bool := !(keyCmp (sort_key a) (sort_key b) == .gt)

/-- Does the filename match the cover regex (its priority component is 0)? -/
def isCoverName (s : String) : Bool := coverScan none (lowerCodes (codes s))

/-- Insert `x` into an already-sorted list, after every element that compares
`<=` to it — the stable insertion step. -/
def insertStable (le : α → α → Bool) (x : α) : List α → List α
  | [] => [x]
  | b :: l => if le b x then b :: insertStable le x l else x :: b :: l

/-- Stable ascending sort (the observable behaviour of Python's `list.sort`). -/
def stableSort (le : α → α → Bool) (l : List α) : List α :=
  l.foldl (fun acc x => insertStable le x acc) []

/-- `Path(f).name` — the part after the final `/` (47).  (Archive entry names
use `/`; a trailing-slash directory entry yields `[]` here where `pathlib`
would yield the directory name — both are discarded by the extension filter.) -/
def basenameCodes (t : List Nat) : List Nat :=
  t.foldl (fun acc c => if c = 47 then [] else acc ++ [c]) []

/-- `PurePath.suffix` of a basename: `name[i:]` for `i = name.rfind('.')` when
`0 < i < len(name) - 1`, else the empty string (`.` = 46). -/
def suffixCodes (b : List Nat) : List Nat :=
  match (b.reverse).findIdx? (fun c => c = 46) with
  | none => []
  | some r =>
    let i := b.length - 1 - r
    if 0 < i ∧ i < b.length - 1 then b.drop i else []

/-- `ignore_patterns` (lowercase basenames skipped outright). -/
def ignorePatterns : List (List Nat) :=
  [codes "thumbs.db", codes ".ds_store", codes "comicinfo.xml", codes "__macosx"]

/-- `ignore_extensions`. -/
def ignoreExtensions : List (List Nat) :=
  [codes ".nfo", codes ".sfv", codes ".txt", codes ".xml", codes ".db", codes ".ini"]

/-- `image_extensions` (recognised raster page types). -/
def imageExtensions : List (List Nat) :=
  [codes ".jpg", codes ".jpeg", codes ".png", codes ".webp", codes ".gif",
   codes ".bmp", codes ".tiff"]

/-- The per-entry filter of `get_pages`: skip ignored names and extensions,
keep recognised image extensions. -/
def keepEntry (f : String) : Bool :=
  let b := basenameCodes (codes f)
  let bl := lowerCodes b
  let suf := lowerCodes (suffixCodes b)
  !(ignorePatterns.contains bl) && !(ignoreExtensions.contains suf) &&
    imageExtensions.contains suf

/-- `ComicArchive.get_pages` on the archive's raw entry list: filter to image
entries, then stable-sort by `sort_key`. -/
def get_pages (files : List String) : List String :=
  stableSort pageLe (files.filter keepEntry)

/-! ### Pillow model (external library, abstracted) -/

/-- Pillow colour modes relevant to `get_page_image`'s mode checks. -/
inductive PILMode where
  | RGB | L | RGBA | other
deriving DecidableEq, Repr

/-- A decoded Pillow image: dimensions, mode, an abstract content tag, and a
flag marking images whose `save` raises (modelling any encoder exception, e.g.
saving an oversized WebP).  Pixel data is abstracted by `tag`; the pixel-level
filters (grayscale, unsharp mask) keep dimensions and are identity on the
abstract content. -/
structure PILImage where
  width : Nat
  height : Nat
  mode : PILMode
  tag : Nat
  failEncode : Bool
deriving DecidableEq, Repr

/-- The content of a byte string: either undecodable bytes (`Image.open`
raises), or bytes that decode to a given image. -/
inductive ByteContent where
  | junk (tag : Nat)
  | image (img : PILImage)
deriving DecidableEq, Repr

/-- A byte string: its length (`len(image_bytes)`) and its content.
Byte-identity is equality of this structure. -/
structure Bytes where
  size : Nat
  content : ByteContent
deriving DecidableEq, Repr

/-- `Image.open(BytesIO(b))`: `none` models a decode exception. -/
def decodeBytes (b : Bytes) : Option PILImage :=
  match b.content with
  | .junk _ => none
  | .image img => some img

/-- `img.convert('RGB')`. -/
def convertRGB (img : PILImage) : PILImage := { img with mode := .RGB }

/-- Is the mode in `('RGB', 'L', 'RGBA')`? -/
def modeOk (m : PILMode) : Bool :=
  match m with
  | .RGB | .L | .RGBA => true
  | .other => false

/-- `img.thumbnail((m, m), LANCZOS)`: shrink preserving aspect ratio so that
neither dimension exceeds `m`; a no-op if the image already fits.  Pillow's
exact rounding is `round_aspect`; the model floors and clamps to 1, which
agrees on the property used here (both dimensions end `<= m`). -/
def pilThumbnail (m : Nat) (img : PILImage) : PILImage :=
  if img.width ≤ m ∧ img.height ≤ m then img
  else if img.width ≤ img.height then
    { img with width := max 1 (m * img.width / img.height), height := m }
  else
    { img with width := m, height := max 1 (m * img.height / img.width) }

/-- `ImageOps.grayscale(img)`: mode `L`, same dimensions. -/
def grayscaleImg (img : PILImage) : PILImage := { img with mode := .L }

/-- `img.filter(ImageFilter.UnsharpMask(radius=2, percent=150, threshold=3))`:
dimensions and mode unchanged; pixel content abstracted. -/
def unsharpImg (img : PILImage) : PILImage := img

/-- `img.save(output, format=...)` followed by `output.getvalue()`: fails when
the image's encoder flag is set, otherwise yields fresh bytes that decode to
the same image (same dimensions and mode; the abstract size is nominal). -/
def encodeImg (img : PILImage) : Option Bytes :=
  if img.failEncode then none else some ⟨img.width * img.height + 1, .image img⟩

/-- The slow path's in-memory transform chain (lines 78-97 of `images.py`):
mode normalisation, the 2560px cap when `transcode_webp` is set, then the
optional grayscale and unsharp-mask filters. -/
def transformImg (sharpen grayscale transcode_webp : Bool) (img0 : PILImage) : PILImage :=
  let img1 := if modeOk img0.mode then img0 else convertRGB img0
  let img2 :=
    if transcode_webp then
      if 2560 < img1.width ∨ 2560 < img1.height then pilThumbnail 2560 img1 else img1
    else img1
  let img3 := if grayscale then grayscaleImg img2 else img2
  if sharpen then unsharpImg img3 else img3

/-! ### `ImageService.get_page_image` -/

/-- What the file system holds at a path: nothing (`Path.exists()` false), a
file `ComicArchive` cannot open (unsupported extension or corrupt container —
the constructor raises either way), or an archive with its entry list. -/
inductive FsEntry where
  | missing
  | corrupt
  | archive (entries : List (String × Bytes))
deriving DecidableEq, Repr

/-- `archive.read_file(name)`: the bytes of the named entry
(`none` models a raised archive error). -/
def read_file (entries : List (String × Bytes)) (name : String) : Option Bytes :=
  entries.lookup name

/-- Mime detection from the entry name's extension
(`filename.lower().endswith(...)`). -/
def detectMime (name : String) : String :=
  let l := lowerCodes (codes name)
  if (codes ".png").isSuffixOf l then "image/png"
  else if (codes ".webp").isSuffixOf l then "image/webp"
  else if (codes ".gif").isSuffixOf l then "image/gif"
  else "image/jpeg"

/-- `ImageService.get_page_image(comic_path, page_index, sharpen, grayscale,
transcode_webp)`, returning the `(bytes, success, mimetype)` triple.  Every
Python exception path is a total branch here: the outer `except` yields
`(None, False, "application/octet-stream")`, the slow-path `except` yields the
original bytes flagged `False`. -/
def get_page_image (fs : String → FsEntry) (comic_path : String) (page_index : Int)
    (sharpen grayscale transcode_webp : Bool) : Option Bytes × Bool × String :=
  match fs comic_path with
  | .missing => (none, false, "application/octet-stream")
  | .corrupt => (none, false, "application/octet-stream")
  | .archive entries =>
    let pages := get_pages (entries.map Prod.fst)
    if page_index < 0 then (none, false, "application/octet-stream")
    else
      match pages.get? page_index.toNat with
      | none => (none, false, "application/octet-stream")
      | some name =>
        match read_file entries name with
        | none => (none, false, "application/octet-stream")
        | some image_bytes =>
          let original_size := image_bytes.size
          let mime_type := detectMime name
          -- the 500 KB threshold is commented out in the source; the live
          -- check is `original_size > 0`
          let needs_transcode :=
            transcode_webp && decide (0 < original_size) && !(mime_type == "image/webp")
          if !sharpen && !grayscale && !needs_transcode then
            (some image_bytes, true, mime_type)
          else
            match decodeBytes image_bytes with
            | none => (some image_bytes, false, mime_type)
            | some img0 =>
              let img4 := transformImg sharpen grayscale transcode_webp img0
              if needs_transcode || mime_type == "image/webp" then
                match encodeImg img4 with
                | none => (some image_bytes, false, mime_type)
                | some out => (some out, true, "image/webp")
              else
                match encodeImg img4 with
                | none => (some image_bytes, false, mime_type)
                | some out => (some out, true, "image/jpeg")

/-! ### `ScanManager` -/

/-- `ScanTask(library_id, force)`. -/
structure ScanTask where
  library_id : Nat
  force : Bool
deriving DecidableEq, Repr

/-- The mutable state of the singleton `ScanManager`: the FIFO queue, the task
being processed (if any), and the `is_scanning` flag. -/
structure SMState where
  queue : List ScanTask
  current_task : Option ScanTask
  is_scanning : Bool
deriving DecidableEq, Repr

/-- Result of `add_task`. -/
inductive AddStatus where
  | ignored | queued
deriving DecidableEq, Repr

/-- The dict returned by `add_task` ("position" only present when queued). -/
structure AddResult where
  status : AddStatus
  position : Option Nat
deriving DecidableEq, Repr

/-- `ScanManager.add_task`: reject when the library is the one currently being
scanned, otherwise append to the queue and report the queue size as position. -/
def add_task (s : SMState) (library_id : Nat) (force : Bool) : AddResult × SMState :=
  let dup :=
    match s.current_task with
    | some t => t.library_id == library_id
    | none => false
  if dup then (⟨.ignored, none⟩, s)
  else
    let q := s.queue ++ [⟨library_id, force⟩]
    (⟨.queued, some q.length⟩, { s with queue := q })

/-- `ScanManager.get_status`. -/
structure ScanStatus where
  is_scanning : Bool
  current_library_id : Option Nat
  queue_size : Nat
deriving DecidableEq, Repr

def get_status (s : SMState) : ScanStatus :=
  ⟨s.is_scanning, s.current_task.map ScanTask.library_id, s.queue.length⟩

/-- A library row, reduced to the one field this pipeline touches. -/
structure Library where
  is_scanning : Bool
deriving DecidableEq, Repr

/-- The persistence collaborator: library rows keyed by id. -/
def Db := List (Nat × Library)

/-- `db.query(Library).filter(Library.id == id).first()`. -/
def findLib (db : Db) (id : Nat) : Option Library :=
  List.lookup id db

/-- Set a library's `is_scanning` flag (committed write). -/
def setScanning (db : Db) (id : Nat) (v : Bool) : Db :=
  db.map fun p => if p.1 = id then (p.1, ⟨v⟩) else p

/-- `ScanManager._run_scan`: look the library up; if present, mark it scanning
and run the scan job (which may mutate the database and may raise — either way
control reaches the `finally`); the `finally` re-fetches the library and, if it
still exists, clears its flag.  `job` returns the database as left by the
scan's commits/rollback plus whether it raised. -/
def _run_scan (db : Db) (library_id : Nat) (job : Db → Db × Bool) : Db :=
  let db2 :=
    match findLib db library_id with
    | none => db
    | some _ => (job (setScanning db library_id true)).1
  match findLib db2 library_id with
  | none => db2
  | some _ => setScanning db2 library_id false

/-- One iteration of `ScanManager._process_queue`: on an empty queue the
1-second `get` times out and the loop just re-checks the stop event; otherwise
the head task is popped, marked active, run (exceptions from `_run_scan` are
caught), and the `finally` clears `is_scanning` and `current_task`. -/
def _process_queue_step (s : SMState) (db : Db) (job : Db → Db × Bool) :
    SMState × Db :=
  match s.queue with
  | [] => (s, db)
  | t :: rest =>
    let db' := _run_scan db t.library_id job
    (⟨rest, none, false⟩, db')

/-! ### Thumbnail pipeline (`thumbnailer.py`) -/

/-- The palette dict produced by cover processing (abstracted to the two colour
fields the writer persists). -/
structure Palette where
  primary : Option String
  secondary : Option String
deriving DecidableEq, Repr

/-- Result of `ImageService.process_cover`. -/
structure CoverResult where
  success : Bool
  palette : Option Palette
deriving DecidableEq, Repr

/-- An abstract palette for a decoded cover. -/
def paletteOf (img : PILImage) : Palette :=
  ⟨some (toString img.tag), some (toString img.tag)⟩

/-- Modelled from the spec: `ImageService.process_cover` is called by
`thumbnailer.py` but is not defined anywhere under `src/`.  Per spec §4.2-§4.4
it opens the archive, decodes page 0, writes the resized thumbnail and computes
the palette from the same decode, reporting `{success, palette}`; any per-item
failure (missing file, unsupported/corrupt archive, empty page list, archive
read error, decode/encode failure) reports `success=False`. -/
def process_cover (fs : String → FsEntry) (path : String) : CoverResult :=
  match fs path with
  | .missing => ⟨false, none⟩
  | .corrupt => ⟨false, none⟩
  | .archive entries =>
    match (get_pages (entries.map Prod.fst)).head? with
    | none => ⟨false, none⟩
    | some name =>
      match read_file entries name with
      | none => ⟨false, none⟩
      | some b =>
        match decodeBytes b with
        | none => ⟨false, none⟩
        | some img =>
          if img.failEncode then ⟨false, none⟩ else ⟨true, some (paletteOf img)⟩

/-- A comic row, reduced to the fields the pipeline reads and writes. -/
structure Comic where
  id : Nat
  file_path : String
  thumbnail_path : Option String
  color_primary : Option String
deriving DecidableEq, Repr

/-- The aggregate stats dict `{"processed": _, "errors": _, "skipped": _}`. -/
structure Stats where
  processed : Nat
  errors : Nat
  skipped : Nat
deriving DecidableEq, Repr

/-- `ThumbnailService._get_target_comics`: all the library's comics when
`force`, else those missing a thumbnail path or missing colour data. -/
def _get_target_comics (comics : List Comic) (force : Bool) : List Comic :=
  if force then comics
  else comics.filter fun c => c.thumbnail_path.isNone || c.color_primary.isNone

/-- The double-check in both pipeline loops: an existing thumbnail file plus
existing colours lets a non-forced run skip the comic.  (Python truthiness of
the path string is modelled by `Option`.) -/
def skipComic (fileExists : String → Bool) (force : Bool) (c : Comic) : Bool :=
  let has_thumb :=
    match c.thumbnail_path with
    | some p => fileExists p
    | none => false
  let has_colors := c.color_primary.isSome
  !force && has_thumb && has_colors

/-- One iteration of the sequential `process_missing_thumbnails` loop:
skip, or run `process_cover` and count the outcome (persistence writes, which
do not affect the returned stats, are elided).  Any exception inside the item's
`try` is counted as an error — in the model `process_cover` absorbs them. -/
def seqStep (fs : String → FsEntry) (fileExists : String → Bool) (force : Bool)
    (stats : Stats) (c : Comic) : Stats :=
  if skipComic fileExists force c then { stats with skipped := stats.skipped + 1 }
  else if (process_cover fs c.file_path).success then
    { stats with processed := stats.processed + 1 }
  else { stats with errors := stats.errors + 1 }

/-- `ThumbnailService.process_missing_thumbnails` (sequential mode). -/
def process_missing_thumbnails (fs : String → FsEntry) (fileExists : String → Bool)
    (comics : List Comic) (force : Bool) : Stats :=
  (_get_target_comics comics force).foldl (seqStep fs fileExists force) ⟨0, 0, 0⟩

/-- A `WorkResult` payload sent from a worker to the writer. -/
structure Payload where
  comic_id : Nat
  error : Bool
  thumbnail_path : Option String
  palette : Option Palette
deriving DecidableEq, Repr

/-- `_thumbnail_worker`: pure per-item work; exceptions become error payloads. -/
def _thumbnail_worker (fs : String → FsEntry) (task : Nat × String) : Payload :=
  let r := process_cover fs task.2
  if r.success then
    ⟨task.1, false, some ("./storage/cover/comic_" ++ toString task.1 ++ ".webp"),
      r.palette⟩
  else ⟨task.1, true, none, none⟩

/-- The pre-filter in `process_missing_thumbnails_parallel`: count skips and
collect `(comic_id, file_path)` work items, in order. -/
def prefilterTasks (fileExists : String → Bool) (force : Bool)
    (targets : List Comic) : Nat × List (Nat × String) :=
  targets.foldl
    (fun acc c =>
      if skipComic fileExists force c then (acc.1 + 1, acc.2)
      else (acc.1, acc.2 ++ [(c.id, c.file_path)]))
    (0, [])

/-- The parallel run's worker outputs in submission order; the writer receives
them in some arrival order (`imap_unordered` plus a queue), i.e. in a
permutation of this list. -/
def workerPayloads (fs : String → FsEntry) (fileExists : String → Bool)
    (comics : List Comic) (force : Bool) : List Payload :=
  ((prefilterTasks fileExists force (_get_target_comics comics force)).2).map
    (_thumbnail_worker fs)

/-- `_thumbnail_writer`: consume every payload before the `None` sentinel and
count successes and errors (batched `_apply_batch` commits sum to the same
totals; its own `skipped` stays 0). -/
def _thumbnail_writer (results : List Payload) : Stats :=
  ⟨results.countP (fun p => !p.error), results.countP (fun p => p.error), 0⟩

/-- `ThumbnailService.process_missing_thumbnails_parallel`: pre-filter, fan out,
and add the writer's final summary to the pre-counted skips.  `arrival` is the
order in which the writer receives the payloads; the intended runs are exactly
those where `arrival` is a permutation of `workerPayloads ...`. -/
def process_missing_thumbnails_parallel (fileExists : String → Bool)
    (comics : List Comic) (force : Bool) (arrival : List Payload) : Stats :=
  let targets := _get_target_comics comics force
  let pre := prefilterTasks fileExists force targets
  let summary := _thumbnail_writer arrival
  ⟨summary.processed, summary.errors, pre.1 + summary.skipped⟩

/-! ## Theorems -/

/-! ### Comparator laws -/

theorem natCmp_eq_iff (a b : Nat) : natCmp a b = .eq ↔ a = b := by
  unfold natCmp
  split_ifs with h1 h2
  · simp
    omega
  · simp
    omega
  · simp
    omega

theorem natCmp_lt_iff (a b : Nat) : natCmp a b = .lt ↔ a < b := by
  unfold natCmp; split_ifs with h1 h2 <;> simp_all

theorem natCmp_swap (a b : Nat) : natCmp a b = .lt ↔ natCmp b a = .gt := by
  unfold natCmp
  split_ifs with h1 h2 h3 <;> simp_all
  omega

theorem natCmp_trans {a b c : Nat} (h1 : natCmp a b = .lt) (h2 : natCmp b c = .lt) :
    natCmp a c = .lt := by
  rw [natCmp_lt_iff] at *; omega

theorem natCmp_refl (a : Nat) : natCmp a a = .eq := (natCmp_eq_iff a a).mpr rfl

theorem listCmp_eq_iff {c : α → α → Ordering} (hc : ∀ a b, c a b = .eq ↔ a = b) :
    ∀ l m : List α, listCmp c l m = .eq ↔ l = m
  | [], [] => by simp [listCmp]
  | [], _ :: _ => by simp [listCmp]
  | _ :: _, [] => by simp [listCmp]
  | a :: as, b :: bs => by
    simp [listCmp, Ordering.then_eq_eq, hc, listCmp_eq_iff hc as bs]

theorem listCmp_swap {c : α → α → Ordering} (hce : ∀ a b, c a b = .eq ↔ a = b)
    (hcs : ∀ a b, c a b = .lt ↔ c b a = .gt) :
    ∀ l m : List α, listCmp c l m = .lt ↔ listCmp c m l = .gt
  | [], [] => by simp [listCmp]
  | [], _ :: _ => by simp [listCmp]
  | _ :: _, [] => by simp [listCmp]
  | a :: as, b :: bs => by
    simp only [listCmp, Ordering.then_eq_lt, Ordering.then_eq_gt]
    constructor
    · rintro (h | ⟨h1, h2⟩)
      · exact Or.inl ((hcs a b).mp h)
      · exact Or.inr ⟨(hce b a).mpr ((hce a b).mp h1).symm,
          (listCmp_swap hce hcs as bs).mp h2⟩
    · rintro (h | ⟨h1, h2⟩)
      · exact Or.inl ((hcs a b).mpr h)
      · exact Or.inr ⟨(hce a b).mpr ((hce b a).mp h1).symm,
          (listCmp_swap hce hcs as bs).mpr h2⟩

theorem listCmp_trans {c : α → α → Ordering} (hce : ∀ a b, c a b = .eq ↔ a = b)
    (hct : ∀ a b d, c a b = .lt → c b d = .lt → c a d = .lt) :
    ∀ l m n : List α, listCmp c l m = .lt → listCmp c m n = .lt → listCmp c l n = .lt
  | [], [], n => fun _ h2 => h2
  | [], _ :: _, [] => fun _ h2 => by simp [listCmp] at h2
  | [], _ :: _, _ :: _ => fun _ _ => by simp [listCmp]
  | _ :: _, [], _ => fun h1 _ => by simp [listCmp] at h1
  | _ :: _, _ :: _, [] => fun _ h2 => by simp [listCmp] at h2
  | a :: as, b :: bs, d :: ds => fun h1 h2 => by
    simp only [listCmp, Ordering.then_eq_lt] at h1 h2 ⊢
    rcases h1 with h1 | ⟨h1e, h1l⟩
    · rcases h2 with h2 | ⟨h2e, h2l⟩
      · exact Or.inl (hct a b d h1 h2)
      · exact Or.inl (((hce b d).mp h2e) ▸ h1)
    · rcases h2 with h2 | ⟨h2e, h2l⟩
      · exact Or.inl ((((hce a b).mp h1e).symm ▸ h2 : c a d = .lt))
      · refine Or.inr ⟨(hce a d).mpr (((hce a b).mp h1e).trans ((hce b d).mp h2e)), ?_⟩
        exact listCmp_trans hce hct as bs ds h1l h2l

theorem partCmp_eq_iff (a b : NatPart) : partCmp a b = .eq ↔ a = b := by
  cases a with
  | s t1 =>
    cases b with
    | s t2 =>
      simp only [partCmp]
      rw [listCmp_eq_iff natCmp_eq_iff]
      simp
    | n _ => simp [partCmp]
  | n v1 =>
    cases b with
    | s _ => simp [partCmp]
    | n v2 =>
      simp only [partCmp]
      rw [natCmp_eq_iff]
      simp

theorem partCmp_swap (a b : NatPart) : partCmp a b = .lt ↔ partCmp b a = .gt := by
  cases a with
  | s t1 =>
    cases b with
    | s t2 => exact listCmp_swap natCmp_eq_iff natCmp_swap t1 t2
    | n _ => simp [partCmp]
  | n v1 =>
    cases b with
    | s _ => simp [partCmp]
    | n v2 => exact natCmp_swap v1 v2

theorem partCmp_trans {a b d : NatPart} (h1 : partCmp a b = .lt) (h2 : partCmp b d = .lt) :
    partCmp a d = .lt := by
  cases a with
  | s t1 =>
    cases d with
    | n _ => rfl
    | s t3 =>
      cases b with
      | s t2 =>
        exact listCmp_trans natCmp_eq_iff (fun _ _ _ h h' => natCmp_trans h h') t1 t2 t3 h1 h2
      | n _ => simp [partCmp] at h2
  | n v1 =>
    cases b with
    | s _ => simp [partCmp] at h1
    | n v2 =>
      cases d with
      | s _ => simp [partCmp] at h2
      | n v3 => exact natCmp_trans h1 h2

theorem partCmp_refl (a : NatPart) : partCmp a a = .eq := (partCmp_eq_iff a a).mpr rfl

theorem keyCmp_swap (a b : Nat × List NatPart) : keyCmp a b = .lt ↔ keyCmp b a = .gt := by
  unfold keyCmp
  simp only [Ordering.then_eq_lt, Ordering.then_eq_gt]
  constructor
  · rintro (h | ⟨h1, h2⟩)
    · exact Or.inl ((natCmp_swap _ _).mp h)
    · exact Or.inr ⟨(natCmp_eq_iff _ _).mpr ((natCmp_eq_iff _ _).mp h1).symm,
        (listCmp_swap partCmp_eq_iff partCmp_swap _ _).mp h2⟩
  · rintro (h | ⟨h1, h2⟩)
    · exact Or.inl ((natCmp_swap _ _).mpr h)
    · exact Or.inr ⟨(natCmp_eq_iff _ _).mpr ((natCmp_eq_iff _ _).mp h1).symm,
        (listCmp_swap partCmp_eq_iff partCmp_swap _ _).mpr h2⟩

theorem keyCmp_trans {a b d : Nat × List NatPart} (h1 : keyCmp a b = .lt)
    (h2 : keyCmp b d = .lt) : keyCmp a d = .lt := by
  unfold keyCmp at *
  simp only [Ordering.then_eq_lt] at h1 h2 ⊢
  rcases h1 with h1 | ⟨h1e, h1l⟩
  · rcases h2 with h2 | ⟨h2e, h2l⟩
    · exact Or.inl (natCmp_trans h1 h2)
    · exact Or.inl (((natCmp_eq_iff _ _).mp h2e) ▸ h1)
  · rcases h2 with h2 | ⟨h2e, h2l⟩
    · exact Or.inl ((((natCmp_eq_iff _ _).mp h1e).symm ▸ h2 : natCmp a.1 d.1 = .lt))
    · refine Or.inr ⟨(natCmp_eq_iff _ _).mpr
        (((natCmp_eq_iff _ _).mp h1e).trans ((natCmp_eq_iff _ _).mp h2e)), ?_⟩
      exact listCmp_trans partCmp_eq_iff (fun _ _ _ h h' => partCmp_trans h h') _ _ _ h1l h2l

theorem keyCmp_eq_iff (a b : Nat × List NatPart) : keyCmp a b = .eq ↔ a = b := by
  unfold keyCmp
  simp only [Ordering.then_eq_eq]
  rw [natCmp_eq_iff, listCmp_eq_iff partCmp_eq_iff]
  constructor
  · rintro ⟨h1, h2⟩; exact Prod.ext h1 h2
  · rintro rfl; exact ⟨rfl, rfl⟩

theorem keyCmp_refl (a : Nat × List NatPart) : keyCmp a a = .eq := (keyCmp_eq_iff a a).mpr rfl

/-! ### Stable sort -/

theorem pageLe_total (a b : String) (h : pageLe a b = false) : pageLe b a = true := by
  unfold pageLe at *
  rcases hk : keyCmp (sort_key a) (sort_key b) with _ | _ | _ <;> rw [hk] at h
  · exact absurd h (by decide)
  · exact absurd h (by decide)
  · rw [(keyCmp_swap (sort_key b) (sort_key a)).mpr hk]
    rfl

theorem pageLe_trans {a b c : String} (h1 : pageLe a b = true) (h2 : pageLe b c = true) :
    pageLe a c = true := by
  unfold pageLe at *
  rcases hab : keyCmp (sort_key a) (sort_key b) with _ | _ | _
  · rcases hbc : keyCmp (sort_key b) (sort_key c) with _ | _ | _
    · rw [keyCmp_trans hab hbc]
      rfl
    · rw [← (keyCmp_eq_iff _ _).mp hbc, hab]
      rfl
    · rw [hbc] at h2
      exact absurd h2 (by decide)
  · rw [(keyCmp_eq_iff _ _).mp hab]
    exact h2
  · rw [hab] at h1
    exact absurd h1 (by decide)

theorem insertStable_perm (le : α → α → Bool) (x : α) :
    ∀ l : List α, (insertStable le x l).Perm (x :: l)
  | [] => List.Perm.refl _
  | b :: l => by
    unfold insertStable
    split_ifs with h
    · exact ((insertStable_perm le x l).cons b).trans (List.Perm.swap x b l)
    · exact List.Perm.refl _

theorem stableSort_perm_aux (le : α → α → Bool) :
    ∀ (l acc : List α), (l.foldl (fun acc x => insertStable le x acc) acc).Perm (acc ++ l)
  | [], acc => by simp
  | x :: l, acc => by
    simp only [List.foldl_cons]
    refine (stableSort_perm_aux le l (insertStable le x acc)).trans ?_
    refine ((insertStable_perm le x acc).append_right l).trans ?_
    exact List.perm_middle.symm

theorem stableSort_perm (le : α → α → Bool) (l : List α) : (stableSort le l).Perm l := by
  simpa using stableSort_perm_aux le l []

theorem pairwise_insertStable {le : α → α → Bool}
    (htot : ∀ a b, le a b = false → le b a = true)
    (htr : ∀ a b c, le a b = true → le b c = true → le a c = true) (x : α) :
    ∀ l : List α, l.Pairwise (fun a b => le a b = true) →
      (insertStable le x l).Pairwise (fun a b => le a b = true)
  | [], _ => by simp [insertStable]
  | b :: l, h => by
    rw [List.pairwise_cons] at h
    obtain ⟨hb, hl⟩ := h
    unfold insertStable
    split_ifs with hle
    · rw [List.pairwise_cons]
      refine ⟨?_, pairwise_insertStable htot htr x l hl⟩
      intro y hy
      rcases List.mem_cons.mp ((insertStable_perm le x l).mem_iff.mp hy) with rfl | hy'
      · exact hle
      · exact hb y hy'
    · have hxb : le x b = true := htot b x (Bool.eq_false_iff.mpr hle)
      rw [List.pairwise_cons]
      constructor
      · intro y hy
        rcases List.mem_cons.mp hy with rfl | hy'
        · exact hxb
        · exact htr x b y hxb (hb y hy')
      · exact List.pairwise_cons.mpr ⟨hb, hl⟩

theorem pairwise_stableSort_aux {le : α → α → Bool}
    (htot : ∀ a b, le a b = false → le b a = true)
    (htr : ∀ a b c, le a b = true → le b c = true → le a c = true) :
    ∀ (l acc : List α), acc.Pairwise (fun a b => le a b = true) →
      (l.foldl (fun acc x => insertStable le x acc) acc).Pairwise (fun a b => le a b = true)
  | [], _, h => h
  | x :: l, acc, h =>
    pairwise_stableSort_aux htot htr l (insertStable le x acc)
      (pairwise_insertStable htot htr x acc h)

theorem get_pages_pairwise (files : List String) :
    (get_pages files).Pairwise (fun a b => pageLe a b = true) := by
  unfold get_pages stableSort
  exact pairwise_stableSort_aux pageLe_total (fun _ _ _ h h' => pageLe_trans h h') _ _
    List.Pairwise.nil

/-- In `get_pages` output, an entry with a strictly smaller sort key sits at a
strictly smaller index. -/
theorem get_pages_pos_of_keyLt (files : List String) (i j : Nat)
    (hi : i < (get_pages files).length) (hj : j < (get_pages files).length)
    (hk : keyCmp (sort_key ((get_pages files).get ⟨i, hi⟩))
      (sort_key ((get_pages files).get ⟨j, hj⟩)) = .lt) : i < j := by
  by_contra hij
  rcases Nat.eq_or_lt_of_le (Nat.le_of_not_lt hij) with heq | hlt
  · have hfin : (⟨j, hj⟩ : Fin (get_pages files).length) = ⟨i, hi⟩ := Fin.ext heq
    rw [hfin] at hk
    exact Ordering.noConfusion ((keyCmp_refl _).symm.trans hk)
  · have hp := List.pairwise_iff_get.mp (get_pages_pairwise files) ⟨j, hj⟩ ⟨i, hi⟩ hlt
    unfold pageLe at hp
    rw [(keyCmp_swap _ _).mp hk] at hp
    exact absurd hp (by decide)

theorem sort_key_fst (s : String) :
    (sort_key s).1 = if isCoverName s then 0 else 1 := rfl

/-- Claim C4: in `get_pages`, every surviving entry whose lowercased name
matches `fc`, `cover` or `front` as a whole word sorts strictly before every
entry that does not match; and the spec's example archive
`["004.jpg", "FC.jpg", "002.jpg"]` yields `["FC.jpg", "002.jpg", "004.jpg"]`. -/
theorem C4_cover_pages_sort_first :
    (∀ (files : List String) (i j : Nat) (hi : i < (get_pages files).length)
      (hj : j < (get_pages files).length),
      isCoverName ((get_pages files).get ⟨i, hi⟩) = true →
      isCoverName ((get_pages files).get ⟨j, hj⟩) = false →
      i < j) ∧
    get_pages ["004.jpg", "FC.jpg", "002.jpg"] = ["FC.jpg", "002.jpg", "004.jpg"] := by
  constructor
  · intro files i j hi hj hci hcj
    apply get_pages_pos_of_keyLt files i j hi hj
    have h1 : (sort_key ((get_pages files).get ⟨i, hi⟩)).1 = 0 := by
      rw [sort_key_fst, hci]
      rfl
    have h2 : (sort_key ((get_pages files).get ⟨j, hj⟩)).1 = 1 := by
      rw [sort_key_fst, hcj]
      rfl
    unfold keyCmp
    rw [h1, h2]
    rfl
  · decide

/-- Witness for C4: in the two-entry archive `["FC.jpg", "002.jpg"]` the cover
page lands at index 0, before the non-cover page at index 1. -/
theorem C4_cover_pages_sort_first_witness :
    isCoverName ((get_pages ["FC.jpg", "002.jpg"]).get ⟨0, by decide⟩) = true ∧ (0 : Nat) < 1 :=
  ⟨by decide,
    C4_cover_pages_sort_first.1 ["FC.jpg", "002.jpg"] 0 1 (by decide) (by decide)
      (by decide) (by decide)⟩

/-! ### Structure of the natural-sort split (towards claim C5) -/

theorem consDigit_shape (c : Nat) (P : List RawPart) :
    ∃ ds rest, consDigit c P = .s [] :: .d ds :: rest := by
  rcases P with _ | ⟨p0, P'⟩
  · exact ⟨[c], [], rfl⟩
  · rcases p0 with t | ds
    · rcases t with _ | ⟨x, xs⟩
      · rcases P' with _ | ⟨p1, P''⟩
        · exact ⟨[c], [.s []], rfl⟩
        · rcases p1 with t1 | ds1
          · exact ⟨[c], .s [] :: .s t1 :: P'', rfl⟩
          · exact ⟨c :: ds1, P'', rfl⟩
      · exact ⟨[c], .s (x :: xs) :: P', rfl⟩
    · exact ⟨[c], .d ds :: P', rfl⟩

/-- `splitRaw` output always begins with the maximal leading text run. -/
theorem splitRaw_head :
    ∀ l : List Nat, ∃ rest, splitRaw l = .s (l.takeWhile fun c => !isDig c) :: rest
  | [] => ⟨[], rfl⟩
  | c :: r => by
    rcases hd : isDig c with _ | _
    · obtain ⟨rest, hr⟩ := splitRaw_head r
      refine ⟨rest, ?_⟩
      show (if isDig c then consDigit c (splitRaw r) else consText c (splitRaw r)) = _
      rw [hd, if_neg (by simp), hr, List.takeWhile_cons, hd]
      rfl
    · obtain ⟨ds, rest, hshape⟩ := consDigit_shape c (splitRaw r)
      refine ⟨.d ds :: rest, ?_⟩
      show (if isDig c then consDigit c (splitRaw r) else consText c (splitRaw r)) = _
      rw [hd, if_pos rfl, hshape, List.takeWhile_cons, hd]
      rfl

/-- A maximal digit run at the front splits off as one `.d` fragment. -/
theorem splitRaw_digit_run :
    ∀ (d suf : List Nat), d ≠ [] → (∀ c ∈ d, isDig c = true) →
      (∀ c ∈ suf.head?, isDig c = false) →
      splitRaw (d ++ suf) = .s [] :: .d d :: splitRaw suf
  | [], _, h, _, _ => absurd rfl h
  | [c], suf, _, hd, hs => by
    have hc : isDig c = true := hd c (by simp)
    show (if isDig c then consDigit c (splitRaw suf) else consText c (splitRaw suf)) = _
    rw [if_pos hc]
    cases suf with
    | nil => rfl
    | cons s0 suf' =>
      have hs0 : isDig s0 = false := hs s0 (by simp)
      obtain ⟨rest, hr⟩ := splitRaw_head (s0 :: suf')
      rw [hr, List.takeWhile_cons, hs0]
      rfl
  | c :: c' :: d', suf, _, hd, hs => by
    have hc : isDig c = true := hd c (by simp)
    show (if isDig c then consDigit c (splitRaw (c' :: d' ++ suf))
      else consText c (splitRaw (c' :: d' ++ suf))) = _
    rw [if_pos hc,
      splitRaw_digit_run (c' :: d') suf (by simp) (fun x hx => hd x (by simp at hx ⊢; tauto)) hs]
    rfl

theorem consDigit_eq_default (c : Nat) (P : List RawPart)
    (h : ∀ ds rest, P ≠ .s [] :: .d ds :: rest) :
    consDigit c P = .s [] :: .d [c] :: P := by
  rcases P with _ | ⟨p0, P'⟩
  · rfl
  · rcases p0 with t | ds
    · rcases t with _ | ⟨x, xs⟩
      · rcases P' with _ | ⟨p1, P''⟩
        · rfl
        · rcases p1 with t1 | ds1
          · rfl
          · exact absurd rfl (h ds1 P'')
      · rfl
    · rfl

/-- Splitting `pre ++ X` where `pre` ends in a non-digit and `X` starts with a
digit: the split of `pre` is kept whole (its trailing text fragment included)
and the split of `X` continues after it. -/
theorem splitRaw_append_decomp :
    ∀ (pre X : List Nat), (∀ c ∈ pre.getLast?, isDig c = false) →
      (∀ c ∈ X.head?, isDig c = true) → X ≠ [] →
      ∃ front tl tail, splitRaw pre = front ++ [.s tl] ∧
        splitRaw X = .s [] :: tail ∧
        splitRaw (pre ++ X) = front ++ .s tl :: tail
  | [], X, _, hX, hne => by
    obtain ⟨x0, X', rfl⟩ := List.exists_cons_of_ne_nil hne
    have hx0 : isDig x0 = true := hX x0 (by simp)
    obtain ⟨rest, hr⟩ := splitRaw_head (x0 :: X')
    rw [List.takeWhile_cons, hx0] at hr
    simp only [Bool.not_true, Bool.false_eq_true, if_false] at hr
    exact ⟨[], [], rest, rfl, hr, hr⟩
  | c :: pre', X, hpre, hX, hne => by
    cases pre' with
    | nil =>
      have hc : isDig c = false := hpre c (by simp)
      obtain ⟨x0, X', rfl⟩ := List.exists_cons_of_ne_nil hne
      have hx0 : isDig x0 = true := hX x0 (by simp)
      obtain ⟨rest, hr⟩ := splitRaw_head (x0 :: X')
      rw [List.takeWhile_cons, hx0] at hr
      simp only [Bool.not_true, Bool.false_eq_true, if_false] at hr
      refine ⟨[], [c], rest, ?_, hr, ?_⟩
      · show (if isDig c then consDigit c (splitRaw []) else consText c (splitRaw [])) = _
        rw [hc]
        rfl
      · show (if isDig c then consDigit c (splitRaw (x0 :: X'))
          else consText c (splitRaw (x0 :: X'))) = _
        rw [hc]
        simp only [Bool.false_eq_true, if_false]
        rw [hr]
        rfl
    | cons p pre'' =>
      have hpre' : ∀ x ∈ (p :: pre'').getLast?, isDig x = false := by
        intro x hx
        apply hpre
        rw [List.getLast?_cons_cons]
        exact hx
      obtain ⟨front', tl', tail, h1, h2, h3⟩ :=
        splitRaw_append_decomp (p :: pre'') X hpre' hX hne
      have e1 : splitRaw (c :: p :: pre'') =
          if isDig c then consDigit c (splitRaw (p :: pre''))
          else consText c (splitRaw (p :: pre'')) := rfl
      have e2 : splitRaw ((c :: p :: pre'') ++ X) =
          if isDig c then consDigit c (splitRaw ((p :: pre'') ++ X))
          else consText c (splitRaw ((p :: pre'') ++ X)) := rfl
      rcases hdc : isDig c with _ | _
      · -- `c` is text: it extends or opens the leading text fragment
        rw [hdc] at e1 e2
        simp only [Bool.false_eq_true, if_false] at e1 e2
        rw [h1] at e1
        rw [h3] at e2
        cases front' with
        | nil =>
          exact ⟨[], c :: tl', tail, by rw [e1]; rfl, h2, by rw [e2]; rfl⟩
        | cons f0 front'' =>
          cases f0 with
          | s t0 =>
            exact ⟨.s (c :: t0) :: front'', tl', tail, by rw [e1]; rfl, h2, by rw [e2]; rfl⟩
          | d ds =>
            exact ⟨.s [c] :: .d ds :: front'', tl', tail, by rw [e1]; rfl, h2,
              by rw [e2]; rfl⟩
      · -- `c` is a digit: it extends or opens the digit run after the leading
        -- empty text fragment; `pre` ending in a non-digit keeps the case
        -- analysis on the split of `p :: pre''` exhaustive
        rw [hdc] at e1 e2
        simp only [if_true] at e1 e2
        rw [h1] at e1
        rw [h3] at e2
        cases front' with
        | nil =>
          -- `splitRaw (p :: pre'') = [.s tl']`, so `p` is text and `tl'` nonempty
          have hp : isDig p = false := by
            rcases hdp : isDig p with _ | _
            · rfl
            · obtain ⟨ds, rest, hsh⟩ := consDigit_shape p (splitRaw pre'')
              have : splitRaw (p :: pre'') = .s [] :: .d ds :: rest := by
                show (if isDig p then consDigit p (splitRaw pre'')
                  else consText p (splitRaw pre'')) = _
                rw [hdp, if_pos rfl, hsh]
              rw [h1] at this
              simp at this
          obtain ⟨rest0, hh⟩ := splitRaw_head (p :: pre'')
          rw [h1, List.takeWhile_cons, hp] at hh
          simp only [Bool.not_false, if_true] at hh
          have htl : tl' = p :: pre''.takeWhile (fun c => !isDig c) := by
            have := hh.symm
            simp only [List.nil_append, List.cons.injEq, RawPart.s.injEq] at this
            exact this.1.symm
          refine ⟨[.s [], .d [c]], tl', tail, ?_, h2, ?_⟩
          · rw [e1, consDigit_eq_default]
            · simp
            · intro ds rest hcontra
              rw [htl] at hcontra
              simp at hcontra
          · rw [e2, consDigit_eq_default]
            · simp
            · intro ds rest hcontra
              rw [htl] at hcontra
              simp at hcontra
        | cons f0 front'' =>
          rcases f0 with t0 | ds0
          · cases front'' with
            | nil =>
              refine ⟨.s [] :: .d [c] :: [.s t0], tl', tail, ?_, h2, ?_⟩
              · rw [e1, consDigit_eq_default]
                · simp
                · intro ds rest hcontra
                  simp at hcontra
              · rw [e2, consDigit_eq_default]
                · simp
                · intro ds rest hcontra
                  simp at hcontra
            | cons f1 front''' =>
              rcases f1 with t1 | ds1
              · refine ⟨.s [] :: .d [c] :: .s t0 :: .s t1 :: front''', tl', tail, ?_, h2, ?_⟩
                · rw [e1, consDigit_eq_default]
                  · simp
                  · intro ds rest hcontra
                    simp at hcontra
                · rw [e2, consDigit_eq_default]
                  · simp
                  · intro ds rest hcontra
                    simp at hcontra
              · rcases t0 with _ | ⟨x, xs⟩
                · -- the split of `p :: pre''` starts `.s [] :: .d ds1`: extend that run
                  exact ⟨.s [] :: .d (c :: ds1) :: front''', tl', tail,
                    by rw [e1]; rfl, h2, by rw [e2]; rfl⟩
                · refine ⟨.s [] :: .d [c] :: .s (x :: xs) :: .d ds1 :: front''', tl', tail,
                    ?_, h2, ?_⟩
                  · rw [e1, consDigit_eq_default]
                    · simp
                    · intro ds rest hcontra
                      simp at hcontra
                  · rw [e2, consDigit_eq_default]
                    · simp
                    · intro ds rest hcontra
                      simp at hcontra
          · refine ⟨.s [] :: .d [c] :: .d ds0 :: front'', tl', tail, ?_, h2, ?_⟩
            · rw [e1, consDigit_eq_default]
              · simp
              · intro ds rest hcontra
                simp at hcontra
            · rw [e2, consDigit_eq_default]
              · simp
              · intro ds rest hcontra
                simp at hcontra

theorem listCmp_append_left {c : α → α → Ordering} (hrefl : ∀ a, c a a = .eq) :
    ∀ (p a b : List α), listCmp c (p ++ a) (p ++ b) = listCmp c a b
  | [], _, _ => rfl
  | x :: p, a, b => by
    show (c x x).then (listCmp c (p ++ a) (p ++ b)) = _
    rw [hrefl, listCmp_append_left hrefl p a b]
    rfl

/-- Core of the natural-sort property: two strings sharing everything except
one complete digit run compare by the runs' integer values. -/
theorem natSplit_run_lt (pre d1 d2 suf : List Nat)
    (hpre : ∀ c ∈ pre.getLast?, isDig c = false)
    (hd1 : d1 ≠ []) (hd1d : ∀ c ∈ d1, isDig c = true)
    (hd2 : d2 ≠ []) (hd2d : ∀ c ∈ d2, isDig c = true)
    (hsuf : ∀ c ∈ suf.head?, isDig c = false)
    (hv : digitsVal d1 < digitsVal d2) :
    listCmp partCmp (natSplit (pre ++ d1 ++ suf)) (natSplit (pre ++ d2 ++ suf)) = .lt := by
  obtain ⟨c1, d1', rfl⟩ := List.exists_cons_of_ne_nil hd1
  obtain ⟨c2, d2', rfl⟩ := List.exists_cons_of_ne_nil hd2
  have hX1 : ∀ c ∈ ((c1 :: d1') ++ suf).head?, isDig c = true := by
    intro c hc
    simp only [List.cons_append, List.head?_cons, Option.mem_def, Option.some.injEq] at hc
    exact hc ▸ hd1d c1 (by simp)
  have hX2 : ∀ c ∈ ((c2 :: d2') ++ suf).head?, isDig c = true := by
    intro c hc
    simp only [List.cons_append, List.head?_cons, Option.mem_def, Option.some.injEq] at hc
    exact hc ▸ hd2d c2 (by simp)
  obtain ⟨f1, t1, tail1, hA1, hB1, hC1⟩ :=
    splitRaw_append_decomp pre ((c1 :: d1') ++ suf) hpre hX1 (by simp)
  obtain ⟨f2, t2, tail2, hA2, hB2, hC2⟩ :=
    splitRaw_append_decomp pre ((c2 :: d2') ++ suf) hpre hX2 (by simp)
  obtain ⟨hf, ht⟩ : f1 = f2 ∧ t1 = t2 := by
    have heq := hA1.symm.trans hA2
    have h' := List.append_inj' heq rfl
    refine ⟨h'.1, ?_⟩
    have := h'.2
    simp only [List.cons.injEq, RawPart.s.injEq] at this
    exact this.1
  have hD1 : splitRaw ((c1 :: d1') ++ suf) = .s [] :: .d (c1 :: d1') :: splitRaw suf :=
    splitRaw_digit_run (c1 :: d1') suf (by simp) hd1d hsuf
  have hD2 : splitRaw ((c2 :: d2') ++ suf) = .s [] :: .d (c2 :: d2') :: splitRaw suf :=
    splitRaw_digit_run (c2 :: d2') suf (by simp) hd2d hsuf
  have ht1 : tail1 = .d (c1 :: d1') :: splitRaw suf := by
    rw [hD1] at hB1
    exact (List.cons.injEq _ _ _ _ ▸ hB1.symm).2
  have ht2 : tail2 = .d (c2 :: d2') :: splitRaw suf := by
    rw [hD2] at hB2
    exact (List.cons.injEq _ _ _ _ ▸ hB2.symm).2
  unfold natSplit
  rw [List.append_assoc pre _ suf, List.append_assoc pre _ suf, hC1, hC2, ht1, ht2, hf, ht]
  rw [List.map_append, List.map_append, List.map_cons, List.map_cons, List.map_cons,
    List.map_cons]
  rw [List.append_cons (f2.map rawToPart) (rawToPart (.s t2))
      (rawToPart (.d (c1 :: d1')) :: (splitRaw suf).map rawToPart),
    List.append_cons (f2.map rawToPart) (rawToPart (.s t2))
      (rawToPart (.d (c2 :: d2')) :: (splitRaw suf).map rawToPart),
    listCmp_append_left partCmp_refl]
  show (partCmp (.n (digitsVal (c1 :: d1'))) (.n (digitsVal (c2 :: d2')))).then _ = _
  show (natCmp (digitsVal (c1 :: d1')) (digitsVal (c2 :: d2'))).then _ = _
  rw [(natCmp_lt_iff _ _).mpr hv]
  rfl

/-! ### From raw names to transformed sort-key text (towards claim C5) -/

theorem tc_preserves_isDig (c : Nat) : isDig (sepRep1 (pyLower1 c)) = isDig c := by
  unfold sepRep1 pyLower1 isDig
  split_ifs <;> (apply decide_eq_decide.mpr; constructor <;> intro <;> omega)

theorem tc_fixes_digit (c : Nat) (h : isDig c = true) : sepRep1 (pyLower1 c) = c := by
  simp only [isDig, decide_eq_true_eq] at h
  unfold sepRep1 pyLower1
  split_ifs <;> omega

theorem map_fixed {f : α → α} : ∀ l : List α, (∀ c ∈ l, f c = c) → l.map f = l
  | [], _ => rfl
  | x :: l, h => by
    rw [List.map_cons, h x (by simp), map_fixed l (fun c hc => h c (by simp [hc]))]

theorem sort_key_eq (s : String) :
    sort_key s =
      (if isCoverName s then 0 else 1, natSplit ((lowerCodes (codes s)).map sepRep1)) := rfl

/-- Claim C5: two page filenames that differ only in one complete numeric run,
neither matching the cover pattern, sort by the integer values of the runs —
independent of digit-string length, and with `-`/`_` separators allowed in the
names (they sit inside `pre`/`suf`).  The runs are complete: the shared part
before them does not end in a digit and the shared part after them does not
start with one. -/
theorem C5_natural_sort_numeric_runs :
    ∀ (files : List String) (a b : String) (pre d1 d2 suf : List Nat),
      codes a = pre ++ d1 ++ suf → codes b = pre ++ d2 ++ suf →
      (∀ c ∈ pre.getLast?, isDig c = false) →
      d1 ≠ [] → (∀ c ∈ d1, isDig c = true) →
      d2 ≠ [] → (∀ c ∈ d2, isDig c = true) →
      (∀ c ∈ suf.head?, isDig c = false) →
      isCoverName a = false → isCoverName b = false →
      digitsVal d1 < digitsVal d2 →
      ∀ (i j : Nat) (hi : i < (get_pages files).length) (hj : j < (get_pages files).length),
        (get_pages files).get ⟨i, hi⟩ = a → (get_pages files).get ⟨j, hj⟩ = b → i < j := by
  intro files a b pre d1 d2 suf ha hb hpre hd1 hd1d hd2 hd2d hsuf hca hcb hv i j hi hj hga hgb
  apply get_pages_pos_of_keyLt files i j hi hj
  rw [hga, hgb]
  have hT : ∀ l : List Nat,
      (lowerCodes l).map sepRep1 = l.map (fun c => sepRep1 (pyLower1 c)) := by
    intro l
    unfold lowerCodes
    rw [List.map_map]
    rfl
  rw [sort_key_eq a, sort_key_eq b, hca, hcb, hT, hT, ha, hb]
  unfold keyCmp
  rw [natCmp_refl]
  show listCmp partCmp _ _ = .lt
  rw [List.map_append, List.map_append, List.map_append, List.map_append,
    map_fixed d1 (fun c hc => tc_fixes_digit c (hd1d c hc)),
    map_fixed d2 (fun c hc => tc_fixes_digit c (hd2d c hc))]
  apply natSplit_run_lt
  · intro c hc
    rw [List.getLast?_map] at hc
    cases h0 : pre.getLast? with
    | none => rw [h0] at hc; simp at hc
    | some x =>
      rw [h0] at hc
      have hxc : sepRep1 (pyLower1 x) = c := by simpa using hc
      rw [← hxc, tc_preserves_isDig]
      exact hpre x (by rw [h0]; rfl)
  · exact hd1
  · exact hd1d
  · exact hd2
  · exact hd2d
  · intro c hc
    rw [List.head?_map] at hc
    cases h0 : suf.head? with
    | none => rw [h0] at hc; simp at hc
    | some x =>
      rw [h0] at hc
      have hxc : sepRep1 (pyLower1 x) = c := by simpa using hc
      rw [← hxc, tc_preserves_isDig]
      exact hsuf x (by rw [h0]; rfl)
  · exact hv

/-- Witness for C5: `page2.jpg` sorts before `page10.jpg` (2 < 10 even though
"10" is the longer digit string). -/
theorem C5_natural_sort_numeric_runs_witness :
    digitsVal [50] < digitsVal [49, 48] ∧ (0 : Nat) < 1 :=
  ⟨by decide,
    C5_natural_sort_numeric_runs ["page10.jpg", "page2.jpg"] "page2.jpg" "page10.jpg"
      (codes "page") [50] [49, 48] (codes ".jpg")
      (by decide) (by decide) (by decide) (by decide) (by decide) (by decide) (by decide)
      (by decide) (by decide) (by decide) (by decide)
      0 1 (by decide) (by decide) (by decide) (by decide)⟩

/-! ### `get_page_image` lemmas -/

theorem lookup_of_mem_fst :
    ∀ (entries : List (String × Bytes)) (name : String),
      name ∈ entries.map Prod.fst → ∃ b, List.lookup name entries = some b
  | [], _, h => by simp at h
  | (k, v) :: es, name, h => by
    by_cases hk : name = k
    · exact ⟨v, by simp [List.lookup, beq_iff_eq.mpr hk]⟩
    · have h' : name ∈ es.map Prod.fst := by
        simp only [List.map_cons, List.mem_cons] at h
        tauto
      obtain ⟨b, hb⟩ := lookup_of_mem_fst es name h'
      exact ⟨b, by simp [List.lookup, beq_eq_false_iff_ne.mpr hk, hb]⟩

theorem get_pages_sub (files : List String) : ∀ x ∈ get_pages files, x ∈ files := by
  intro x hx
  unfold get_pages at hx
  exact List.mem_of_mem_filter ((stableSort_perm pageLe (files.filter keepEntry)).mem_iff.mp hx)

/-- The fast-path test is the negation of "some option is set". -/
theorem fast_path_cond_false (s g n : Bool) (h : (s || g || n) = true) :
    (!s && !g && !n) = false := by
  revert h
  cases s <;> cases g <;> cases n <;> decide

theorem transformImg_failEncode (sharpen grayscale transcode_webp : Bool) (img : PILImage) :
    (transformImg sharpen grayscale transcode_webp img).failEncode = img.failEncode := by
  unfold transformImg
  simp only [convertRGB, grayscaleImg, unsharpImg, pilThumbnail]
  split_ifs <;> rfl

theorem pilThumbnail_le (m : Nat) (hm : 1 ≤ m) (img : PILImage) :
    (pilThumbnail m img).width ≤ m ∧ (pilThumbnail m img).height ≤ m := by
  unfold pilThumbnail
  split_ifs with h1 h2
  · exact h1
  · refine ⟨?_, le_refl m⟩
    have hh : 0 < img.height := by omega
    have : m * img.width / img.height ≤ m * img.height / img.height :=
      Nat.div_le_div_right (Nat.mul_le_mul_left m h2)
    rw [Nat.mul_div_cancel m hh] at this
    simp only [max_le_iff]
    exact ⟨hm, this⟩
  · refine ⟨le_refl m, ?_⟩
    have hw : 0 < img.width := by omega
    have : m * img.height / img.width ≤ m * img.width / img.width :=
      Nat.div_le_div_right (Nat.mul_le_mul_left m (by omega))
    rw [Nat.mul_div_cancel m hw] at this
    simp only [max_le_iff]
    exact ⟨hm, this⟩

/-- With `transcode_webp` set, the transform chain caps both dimensions. -/
theorem transformImg_transcode_le (sharpen grayscale : Bool) (img : PILImage) :
    (transformImg sharpen grayscale true img).width ≤ 2560 ∧
      (transformImg sharpen grayscale true img).height ≤ 2560 := by
  unfold transformImg
  simp only [eq_self_iff_true, if_true]
  set img1 := if modeOk img.mode then img else convertRGB img with h1
  set img2 := if 2560 < img1.width ∨ 2560 < img1.height then pilThumbnail 2560 img1 else img1
    with h2
  have hcap : img2.width ≤ 2560 ∧ img2.height ≤ 2560 := by
    rw [h2]
    split_ifs with hex
    · exact pilThumbnail_le 2560 (by omega) img1
    · push_neg at hex
      exact hex
  set img3 := if grayscale then grayscaleImg img2 else img2 with h3
  have h3d : img3.width ≤ 2560 ∧ img3.height ≤ 2560 := by
    rw [h3]
    split_ifs
    · exact hcap
    · exact hcap
  split_ifs
  · exact h3d
  · exact h3d

/-- Claim C6: with no option set, `get_page_image` returns the archive entry's
raw bytes unchanged, `success = true`, and the mime type inferred from the
entry's extension (`.png`/`.webp`/`.gif`, anything else `image/jpeg`). -/
theorem C6_fast_path_identity :
    (∀ (fs : String → FsEntry) (path : String) (entries : List (String × Bytes))
      (n : Nat) (name : String),
      fs path = .archive entries →
      (get_pages (entries.map Prod.fst)).get? n = some name →
      ∃ b, read_file entries name = some b ∧
        get_page_image fs path (n : Int) false false false = (some b, true, detectMime name)) ∧
    (∀ s : String, (codes ".png").isSuffixOf (lowerCodes (codes s)) = true →
      detectMime s = "image/png") ∧
    (∀ s : String, (codes ".png").isSuffixOf (lowerCodes (codes s)) = false →
      (codes ".webp").isSuffixOf (lowerCodes (codes s)) = true →
      detectMime s = "image/webp") ∧
    (∀ s : String, (codes ".png").isSuffixOf (lowerCodes (codes s)) = false →
      (codes ".webp").isSuffixOf (lowerCodes (codes s)) = false →
      (codes ".gif").isSuffixOf (lowerCodes (codes s)) = true →
      detectMime s = "image/gif") ∧
    (∀ s : String, (codes ".png").isSuffixOf (lowerCodes (codes s)) = false →
      (codes ".webp").isSuffixOf (lowerCodes (codes s)) = false →
      (codes ".gif").isSuffixOf (lowerCodes (codes s)) = false →
      detectMime s = "image/jpeg") := by
  refine ⟨?_, ?_, ?_, ?_, ?_⟩
  · intro fs path entries n name harch hget
    obtain ⟨b, hb⟩ := lookup_of_mem_fst entries name
      (get_pages_sub (entries.map Prod.fst) name (List.get?_mem hget))
    refine ⟨b, hb, ?_⟩
    have hb' : read_file entries name = some b := hb
    have hn : ¬((n : Int) < 0) := by omega
    unfold get_page_image
    rw [harch]
    simp only [hn, ite_false, if_false, Int.toNat_natCast, hget, hb']
    rfl
  · intro s h
    simp [detectMime, h]
  · intro s h1 h2
    simp [detectMime, h1, h2]
  · intro s h1 h2 h3
    simp [detectMime, h1, h2, h3]
  · intro s h1 h2 h3
    simp [detectMime, h1, h2, h3]

/-- Witness for C6: a one-page archive returns its entry's bytes verbatim with
`image/jpeg` inferred from the `.jpg` extension. -/
theorem C6_fast_path_identity_witness :
    ∃ b, read_file [("001.jpg", (⟨10, .junk 3⟩ : Bytes))] "001.jpg" = some b ∧
      get_page_image
        (fun p => if p = "a.cbz" then
          FsEntry.archive [("001.jpg", (⟨10, .junk 3⟩ : Bytes))] else FsEntry.missing)
        "a.cbz" ((0 : Nat) : Int) false false false = (some b, true, detectMime "001.jpg") :=
  C6_fast_path_identity.1
    (fun p => if p = "a.cbz" then
      FsEntry.archive [("001.jpg", (⟨10, .junk 3⟩ : Bytes))] else FsEntry.missing)
    "a.cbz" [("001.jpg", (⟨10, .junk 3⟩ : Bytes))] 0 "001.jpg" (by decide) (by decide)

/-- Claim C7: on the slow path, a decode failure (undecodable bytes) or an
encode failure (the encoder flag) is caught and the call returns the original
undecoded entry bytes with `success = false` and the originally detected mime
type — it never propagates the exception. -/
theorem C7_slow_path_error_fallback :
    ∀ (fs : String → FsEntry) (path : String) (entries : List (String × Bytes))
      (n : Nat) (name : String) (b : Bytes) (sharpen grayscale transcode_webp : Bool),
      fs path = .archive entries →
      (get_pages (entries.map Prod.fst)).get? n = some name →
      read_file entries name = some b →
      (sharpen || grayscale ||
        (transcode_webp && decide (0 < b.size) && !(detectMime name == "image/webp"))) = true →
      ((∃ t, b.content = .junk t) ∨ (∃ img, b.content = .image img ∧ img.failEncode = true)) →
      get_page_image fs path (n : Int) sharpen grayscale transcode_webp =
        (some b, false, detectMime name) := by
  intro fs path entries n name b sharpen grayscale transcode harch hget hb hslow hfail
  have hn : ¬((n : Int) < 0) := by omega
  have hcond := fast_path_cond_false _ _ _ hslow
  unfold get_page_image
  rw [harch]
  simp only [hn, ite_false, if_false, Int.toNat_natCast, hget, hb, hcond,
    Bool.false_eq_true]
  rcases hfail with ⟨t, hc⟩ | ⟨img, hc, hfe⟩
  · simp [decodeBytes, hc]
  · have hdec : decodeBytes b = some img := by simp [decodeBytes, hc]
    simp only [hdec]
    have henc : encodeImg (transformImg sharpen grayscale transcode img) = none := by
      unfold encodeImg
      rw [transformImg_failEncode, hfe]
      rfl
    split_ifs <;> simp [henc]

/-- Witness for C7: sharpening an undecodable `.png` entry returns the raw
bytes flagged unsuccessful with the original mime type. -/
theorem C7_slow_path_error_fallback_witness :
    get_page_image
      (fun p => if p = "a.cbz" then
        FsEntry.archive [("p.png", (⟨10, .junk 7⟩ : Bytes))] else FsEntry.missing)
      "a.cbz" ((0 : Nat) : Int) true false false =
      (some (⟨10, .junk 7⟩ : Bytes), false, detectMime "p.png") :=
  C7_slow_path_error_fallback
    (fun p => if p = "a.cbz" then
      FsEntry.archive [("p.png", (⟨10, .junk 7⟩ : Bytes))] else FsEntry.missing)
    "a.cbz" [("p.png", (⟨10, .junk 7⟩ : Bytes))] 0 "p.png" ⟨10, .junk 7⟩ true false false
    (by decide) (by decide) (by decide) (by decide) (Or.inl ⟨7, rfl⟩)

/-- Claim C10: `get_page_image` is total at its interface — a missing file, an
archive that cannot be opened (unsupported or corrupt), a negative page index,
and an out-of-range page index all return
`(None, False, "application/octet-stream")` instead of raising.  (Totality
itself is the embedding's type: every branch returns a triple.) -/
theorem C10_total_interface :
    ∀ (fs : String → FsEntry) (path : String) (idx : Int)
      (sharpen grayscale transcode_webp : Bool),
      (fs path = .missing →
        get_page_image fs path idx sharpen grayscale transcode_webp =
          (none, false, "application/octet-stream")) ∧
      (fs path = .corrupt →
        get_page_image fs path idx sharpen grayscale transcode_webp =
          (none, false, "application/octet-stream")) ∧
      (∀ entries, fs path = .archive entries → idx < 0 →
        get_page_image fs path idx sharpen grayscale transcode_webp =
          (none, false, "application/octet-stream")) ∧
      (∀ entries, fs path = .archive entries →
        (get_pages (entries.map Prod.fst)).get? idx.toNat = none →
        get_page_image fs path idx sharpen grayscale transcode_webp =
          (none, false, "application/octet-stream")) := by
  intro fs path idx sharpen grayscale transcode
  refine ⟨?_, ?_, ?_, ?_⟩
  · intro h
    unfold get_page_image
    rw [h]
  · intro h
    unfold get_page_image
    rw [h]
  · intro entries h hneg
    unfold get_page_image
    rw [h]
    simp only [hneg, ite_true, if_true, if_pos]
  · intro entries h hnone
    unfold get_page_image
    rw [h]
    by_cases hneg : idx < 0
    · simp only [hneg, ite_true, if_true, if_pos]
    · simp only [hneg, ite_false, if_false, hnone]

/-- Witness for C10: a path the file system does not contain yields the
octet-stream failure triple. -/
theorem C10_total_interface_witness :
    get_page_image (fun _ => FsEntry.missing) "ghost.cbz" (-3) false true false =
      (none, false, "application/octet-stream") :=
  (C10_total_interface (fun _ => FsEntry.missing) "ghost.cbz" (-3) false true false).1 rfl

/-- Counterexample to claim C3 as stated.  First conjunct: with
`transcodeIfLarge=true` and no filter, a 5000x7000 WebP source is returned raw
and successful — the returned image has a dimension far above 2560, refuting
"the returned image never has either dimension greater than 2560 pixels".
Second conjunct: with `transcodeIfLarge=true` and `sharpen=true`, the same
WebP source **is** re-encoded (the output differs from the raw entry bytes),
refuting "never re-encodes a source whose detected mime type is already
image/webp" for calls that also set a filter. -/
theorem C3_transcode_guard_counterexample :
    (get_page_image
        (fun p => if p = "c.cbz" then
          FsEntry.archive
            [("big.webp", (⟨900000, .image ⟨5000, 7000, .RGB, 0, false⟩⟩ : Bytes))]
        else FsEntry.missing)
        "c.cbz" 0 false false true =
      (some (⟨900000, .image ⟨5000, 7000, .RGB, 0, false⟩⟩ : Bytes), true, "image/webp") ∧
      decodeBytes (⟨900000, .image ⟨5000, 7000, .RGB, 0, false⟩⟩ : Bytes) =
        some ⟨5000, 7000, .RGB, 0, false⟩ ∧
      2560 < (5000 : Nat)) ∧
    (get_page_image
        (fun p => if p = "c.cbz" then
          FsEntry.archive
            [("big.webp", (⟨900000, .image ⟨5000, 7000, .RGB, 0, false⟩⟩ : Bytes))]
        else FsEntry.missing)
        "c.cbz" 0 true false true =
      (some (⟨4679681, .image ⟨1828, 2560, .RGB, 0, false⟩⟩ : Bytes), true, "image/webp") ∧
      detectMime "big.webp" = "image/webp" ∧
      (⟨4679681, .image ⟨1828, 2560, .RGB, 0, false⟩⟩ : Bytes) ≠
        (⟨900000, .image ⟨5000, 7000, .RGB, 0, false⟩⟩ : Bytes)) := by
  exact ⟨⟨by decide, rfl, by omega⟩, by decide, rfl, by decide⟩

/-- Claim C3, amended to what the code guarantees (the counterexample forces
both changes): for `transcodeIfLarge=true` calls, (A) with no filter set a
source already detected as `image/webp` is returned byte-identical — never
re-encoded; (B) with no filter set a source not above the size threshold (the
live threshold is `0` bytes; the 500 KB check is commented out in the source)
is not transcoded but returned raw; (C) whenever such a call takes the slow
path and succeeds, the returned bytes decode to an image with neither
dimension above 2560.  The 2560 bound does not extend to the raw fast-path
return of an oversized WebP source, and the no-re-encode guarantee does not
extend to calls that also request a filter. -/
theorem C3_transcode_guard_amended :
    ∀ (fs : String → FsEntry) (path : String) (entries : List (String × Bytes))
      (n : Nat) (name : String) (b : Bytes),
      fs path = .archive entries →
      (get_pages (entries.map Prod.fst)).get? n = some name →
      read_file entries name = some b →
      ((detectMime name = "image/webp" →
        get_page_image fs path (n : Int) false false true = (some b, true, "image/webp")) ∧
      (b.size = 0 →
        get_page_image fs path (n : Int) false false true =
          (some b, true, detectMime name)) ∧
      (∀ (sharpen grayscale : Bool) (out : Bytes) (m : String),
        (sharpen || grayscale ||
          (true && decide (0 < b.size) && !(detectMime name == "image/webp"))) = true →
        get_page_image fs path (n : Int) sharpen grayscale true = (some out, true, m) →
        ∃ img, decodeBytes out = some img ∧ img.width ≤ 2560 ∧ img.height ≤ 2560)) := by
  intro fs path entries n name b harch hget hb
  have hn : ¬((n : Int) < 0) := by omega
  refine ⟨?_, ?_, ?_⟩
  · intro hmime
    unfold get_page_image
    rw [harch]
    simp only [hn, ite_false, if_false, Int.toNat_natCast, hget, hb, hmime]
    simp
  · intro hsize
    unfold get_page_image
    rw [harch]
    simp only [hn, ite_false, if_false, Int.toNat_natCast, hget, hb, hsize]
    simp
  · intro sharpen grayscale out m hslow hres
    have hcond := fast_path_cond_false _ _ _ hslow
    unfold get_page_image at hres
    rw [harch] at hres
    simp only [hn, ite_false, if_false, Int.toNat_natCast, hget, hb, hcond,
      Bool.false_eq_true] at hres
    rcases hc : b.content with t | img0
    · have hdec : decodeBytes b = none := by simp [decodeBytes, hc]
      simp only [hdec] at hres
      simp at hres
    · have hdec : decodeBytes b = some img0 := by simp [decodeBytes, hc]
      simp only [hdec] at hres
      have hdims := transformImg_transcode_le sharpen grayscale img0
      split_ifs at hres with hif
      all_goals
        rcases henc : encodeImg (transformImg sharpen grayscale true img0) with _ | out'
      all_goals rw [henc] at hres
      · simp at hres
      · simp only [Prod.mk.injEq, Option.some.injEq] at hres
        obtain ⟨h1, _, _⟩ := hres
        subst h1
        unfold encodeImg at henc
        split_ifs at henc with hf
        have hout := Option.some.inj henc
        refine ⟨transformImg sharpen grayscale true img0, ?_, hdims.1, hdims.2⟩
        rw [← hout]
        rfl
      · simp at hres
      · simp only [Prod.mk.injEq, Option.some.injEq] at hres
        obtain ⟨h1, _, _⟩ := hres
        subst h1
        unfold encodeImg at henc
        split_ifs at henc with hf
        have hout := Option.some.inj henc
        refine ⟨transformImg sharpen grayscale true img0, ?_, hdims.1, hdims.2⟩
        rw [← hout]
        rfl

/-- Witness for the amended C3, exercising all three guarantees on concrete
archives: a small WebP source returned raw, an empty non-WebP source returned
raw, and a successfully transcoded 5000x7000 JPEG source whose output decodes
within 2560x2560. -/
theorem C3_transcode_guard_amended_witness :
    (get_page_image
        (fun p => if p = "a.cbz" then
          FsEntry.archive [("x.webp", (⟨10, .image ⟨100, 100, .RGB, 1, false⟩⟩ : Bytes))]
        else FsEntry.missing)
        "a.cbz" ((0 : Nat) : Int) false false true =
      (some (⟨10, .image ⟨100, 100, .RGB, 1, false⟩⟩ : Bytes), true, "image/webp")) ∧
    (get_page_image
        (fun p => if p = "b.cbz" then
          FsEntry.archive [("y.jpg", (⟨0, .junk 1⟩ : Bytes))] else FsEntry.missing)
        "b.cbz" ((0 : Nat) : Int) false false true =
      (some (⟨0, .junk 1⟩ : Bytes), true, detectMime "y.jpg")) ∧
    (∃ img, decodeBytes (⟨4679681, .image ⟨1828, 2560, .RGB, 0, false⟩⟩ : Bytes) = some img ∧
      img.width ≤ 2560 ∧ img.height ≤ 2560) :=
  ⟨(C3_transcode_guard_amended
      (fun p => if p = "a.cbz" then
        FsEntry.archive [("x.webp", (⟨10, .image ⟨100, 100, .RGB, 1, false⟩⟩ : Bytes))]
      else FsEntry.missing)
      "a.cbz" [("x.webp", (⟨10, .image ⟨100, 100, .RGB, 1, false⟩⟩ : Bytes))] 0 "x.webp"
      ⟨10, .image ⟨100, 100, .RGB, 1, false⟩⟩
      (by decide) (by decide) (by decide)).1 (by decide),
   (C3_transcode_guard_amended
      (fun p => if p = "b.cbz" then
        FsEntry.archive [("y.jpg", (⟨0, .junk 1⟩ : Bytes))] else FsEntry.missing)
      "b.cbz" [("y.jpg", (⟨0, .junk 1⟩ : Bytes))] 0 "y.jpg" ⟨0, .junk 1⟩
      (by decide) (by decide) (by decide)).2.1 rfl,
   (C3_transcode_guard_amended
      (fun p => if p = "c.cbz" then
        FsEntry.archive [("z.jpg", (⟨10, .image ⟨5000, 7000, .RGB, 0, false⟩⟩ : Bytes))]
      else FsEntry.missing)
      "c.cbz" [("z.jpg", (⟨10, .image ⟨5000, 7000, .RGB, 0, false⟩⟩ : Bytes))] 0 "z.jpg"
      ⟨10, .image ⟨5000, 7000, .RGB, 0, false⟩⟩
      (by decide) (by decide) (by decide)).2.2 false false
     ⟨4679681, .image ⟨1828, 2560, .RGB, 0, false⟩⟩ "image/webp" (by decide) (by decide)⟩

/-! ### `ScanManager` -/

/-- Claim C8: `add_task` for the library currently being scanned is ignored and
leaves the whole state (in particular `queue_size`) unchanged; for any other
library the request is appended to the FIFO queue and reported "queued" with
its position. -/
theorem C8_scan_queue_dedup :
    ∀ (s : SMState) (library_id : Nat) (force : Bool),
      ((∃ t, s.current_task = some t ∧ t.library_id = library_id) →
        add_task s library_id force = (⟨.ignored, none⟩, s) ∧
        (get_status (add_task s library_id force).2).queue_size =
          (get_status s).queue_size) ∧
      ((∀ t, s.current_task = some t → t.library_id ≠ library_id) →
        add_task s library_id force =
          (⟨.queued, some (s.queue.length + 1)⟩,
            { s with queue := s.queue ++ [⟨library_id, force⟩] })) := by
  intro s library_id force
  constructor
  · rintro ⟨t, ht, hlib⟩
    have hres : add_task s library_id force = (⟨.ignored, none⟩, s) := by
      unfold add_task
      rw [ht]
      simp only [beq_iff_eq.mpr hlib, if_true]
    exact ⟨hres, by rw [hres]⟩
  · intro h
    have hdup : (match s.current_task with
        | some t => t.library_id == library_id
        | none => false) = false := by
      cases hct : s.current_task with
      | none => rfl
      | some t => exact beq_eq_false_iff_ne.mpr (h t hct)
    unfold add_task
    rw [hdup]
    simp only [Bool.false_eq_true, if_false, List.length_append, List.length_cons,
      List.length_nil]

/-- Witness for C8: with library 7 active, re-enqueueing 7 is ignored with the
queue untouched, while library 9 gets queued at position 1. -/
theorem C8_scan_queue_dedup_witness :
    add_task ⟨[], some ⟨7, false⟩, true⟩ 7 false = (⟨.ignored, none⟩, ⟨[], some ⟨7, false⟩, true⟩) ∧
    add_task ⟨[], some ⟨7, false⟩, true⟩ 9 false =
      (⟨.queued, some 1⟩, ⟨[⟨9, false⟩], some ⟨7, false⟩, true⟩) :=
  ⟨((C8_scan_queue_dedup ⟨[], some ⟨7, false⟩, true⟩ 7 false).1 ⟨⟨7, false⟩, rfl, rfl⟩).1,
    (C8_scan_queue_dedup ⟨[], some ⟨7, false⟩, true⟩ 9 false).2
      (fun t ht => by injection ht with h; rw [← h]; decide)⟩

theorem findLib_setScanning (db : Db) (id : Nat) (v : Bool) :
    findLib (setScanning db id v) id = (findLib db id).map (fun _ => (⟨v⟩ : Library)) := by
  induction db with
  | nil => rfl
  | cons p db ih =>
    rcases p with ⟨k, l⟩
    by_cases hk : k = id
    · subst hk
      have hd : setScanning ((k, l) :: db) k v = (k, ⟨v⟩) :: setScanning db k v := by
        unfold setScanning
        simp
      rw [hd]
      unfold findLib
      simp [List.lookup]
    · have hd : setScanning ((k, l) :: db) id v = (k, l) :: setScanning db id v := by
        unfold setScanning
        simp [hk]
      rw [hd]
      have hne : (id == k) = false := beq_eq_false_iff_ne.mpr (Ne.symm hk)
      unfold findLib
      simp only [List.lookup, hne]
      exact ih

/-- Whatever the scan job does (success or exception), `_run_scan` leaves the
library's `is_scanning` flag cleared if the library still exists. -/
theorem run_scan_clears (db : Db) (id : Nat) (job : Db → Db × Bool) :
    ∀ lib, findLib (_run_scan db id job) id = some lib → lib.is_scanning = false := by
  intro lib hfind
  unfold _run_scan at hfind
  cases h1 : findLib db id with
  | none =>
    simp only [h1] at hfind
    exact Option.noConfusion hfind
  | some l1 =>
    simp only [h1] at hfind
    cases h2 : findLib ((job (setScanning db id true)).1) id with
    | none =>
      simp only [h2] at hfind
      exact Option.noConfusion hfind
    | some l2 =>
      simp only [h2] at hfind
      rw [findLib_setScanning, h2] at hfind
      have h3 : (⟨false⟩ : Library) = lib := Option.some.inj hfind
      rw [← h3]

/-- Claim C9: one worker-loop iteration on a nonempty queue — whether the scan
job returns or raises — ends with the scheduler not scanning, no current task,
`get_status` reporting `is_scanning = false`, and the library's own
`is_scanning` flag cleared (when the library still exists). -/
theorem C9_scan_recovery :
    ∀ (s : SMState) (db : Db) (job : Db → Db × Bool) (t : ScanTask) (rest : List ScanTask),
      s.queue = t :: rest →
      (_process_queue_step s db job).1.is_scanning = false ∧
      (_process_queue_step s db job).1.current_task = none ∧
      (get_status (_process_queue_step s db job).1).is_scanning = false ∧
      (∀ lib, findLib (_process_queue_step s db job).2 t.library_id = some lib →
        lib.is_scanning = false) := by
  intro s db job t rest hq
  have hstep : _process_queue_step s db job =
      (⟨rest, none, false⟩, _run_scan db t.library_id job) := by
    unfold _process_queue_step
    rw [hq]
  rw [hstep]
  exact ⟨rfl, rfl, rfl, run_scan_clears db t.library_id job⟩

/-- Witness for C9: a job that "raises" (and even leaves the flag set in its
own failed transaction) still ends with everything cleared. -/
theorem C9_scan_recovery_witness :
    ((_process_queue_step ⟨[⟨7, false⟩], none, false⟩ [(7, ⟨false⟩)]
        (fun d => (d, true))).1.is_scanning = false) ∧
    (∀ lib, findLib (_process_queue_step ⟨[⟨7, false⟩], none, false⟩ [(7, ⟨false⟩)]
        (fun d => (d, true))).2 7 = some lib → lib.is_scanning = false) :=
  ⟨(C9_scan_recovery ⟨[⟨7, false⟩], none, false⟩ [(7, ⟨false⟩)] (fun d => (d, true))
      ⟨7, false⟩ [] rfl).1,
    (C9_scan_recovery ⟨[⟨7, false⟩], none, false⟩ [(7, ⟨false⟩)] (fun d => (d, true))
      ⟨7, false⟩ [] rfl).2.2.2⟩

/-! ### Thumbnail pipeline counting -/

theorem countP_add_countP_not (p : α → Bool) :
    ∀ l : List α, l.countP p + l.countP (fun a => !(p a)) = l.length
  | [] => rfl
  | a :: l => by
    have ih := countP_add_countP_not p l
    rw [List.countP_cons, List.countP_cons, List.length_cons]
    cases hp : p a <;> simp [hp] <;> omega

/-- A comic selected by `_get_target_comics` never satisfies the loops' skip
test: non-forced selection requires a missing thumbnail path or missing
colours, and `force` bypasses the test. -/
theorem skip_unreachable (fileExists : String → Bool) (comics : List Comic) (force : Bool) :
    ∀ c ∈ _get_target_comics comics force, skipComic fileExists force c = false := by
  intro c hc
  unfold _get_target_comics at hc
  unfold skipComic
  cases hf : force with
  | true => simp
  | false =>
    rw [hf] at hc
    rw [if_neg (by simp)] at hc
    have hfilt := List.of_mem_filter hc
    rcases ht : c.thumbnail_path with _ | p
    · simp [ht]
    · rcases hcp : c.color_primary with _ | col
      · simp [ht, hcp]
      · rw [ht, hcp] at hfilt
        simp at hfilt

theorem seq_fold_count (fs : String → FsEntry) (fileExists : String → Bool) (force : Bool) :
    ∀ (l : List Comic) (stats : Stats), (∀ c ∈ l, skipComic fileExists force c = false) →
      l.foldl (seqStep fs fileExists force) stats =
        ⟨stats.processed + l.countP (fun c => (process_cover fs c.file_path).success),
         stats.errors + l.countP (fun c => !(process_cover fs c.file_path).success),
         stats.skipped⟩
  | [], stats, _ => by
    cases stats
    simp [List.countP_nil]
  | c :: l, stats, h => by
    have hskip : skipComic fileExists force c = false := h c (by simp)
    rw [List.foldl_cons]
    rw [List.countP_cons, List.countP_cons]
    cases hs : (process_cover fs c.file_path).success
    · have hstep : seqStep fs fileExists force stats c =
          ⟨stats.processed, stats.errors + 1, stats.skipped⟩ := by
        unfold seqStep
        rw [hskip, hs]
        rfl
      rw [hstep, seq_fold_count fs fileExists force l _ (fun x hx => h x (by simp [hx]))]
      simp only [Stats.mk.injEq, hs]
      refine ⟨by simp, by simp; omega, trivial⟩
    · have hstep : seqStep fs fileExists force stats c =
          ⟨stats.processed + 1, stats.errors, stats.skipped⟩ := by
        unfold seqStep
        rw [hskip, hs]
        rfl
      rw [hstep, seq_fold_count fs fileExists force l _ (fun x hx => h x (by simp [hx]))]
      simp only [Stats.mk.injEq, hs]
      refine ⟨by simp; omega, by simp, trivial⟩

/-- The sequential pipeline's stats, in closed form: one bucket per selected
comic, success/failure decided by `process_cover`, nothing skipped. -/
theorem process_missing_thumbnails_eq (fs : String → FsEntry) (fileExists : String → Bool)
    (comics : List Comic) (force : Bool) :
    process_missing_thumbnails fs fileExists comics force =
      ⟨(_get_target_comics comics force).countP
          (fun c => (process_cover fs c.file_path).success),
        (_get_target_comics comics force).countP
          (fun c => !(process_cover fs c.file_path).success),
        0⟩ := by
  unfold process_missing_thumbnails
  rw [seq_fold_count fs fileExists force _ _ (skip_unreachable fileExists comics force)]
  simp

theorem prefilter_noskip (fe : String → Bool) (force : Bool) :
    ∀ (l : List Comic) (acc : Nat × List (Nat × String)),
      (∀ c ∈ l, skipComic fe force c = false) →
      l.foldl
        (fun acc c =>
          if skipComic fe force c then (acc.1 + 1, acc.2)
          else (acc.1, acc.2 ++ [(c.id, c.file_path)])) acc =
        (acc.1, acc.2 ++ l.map (fun c => (c.id, c.file_path)))
  | [], acc, _ => by simp
  | c :: l, acc, h => by
    have hskip : skipComic fe force c = false := h c (by simp)
    rw [List.foldl_cons, hskip]
    simp only [Bool.false_eq_true, if_false]
    rw [prefilter_noskip fe force l _ (fun x hx => h x (by simp [hx]))]
    simp

theorem prefilterTasks_eq (fe : String → Bool) (comics : List Comic) (force : Bool) :
    prefilterTasks fe force (_get_target_comics comics force) =
      (0, (_get_target_comics comics force).map (fun c => (c.id, c.file_path))) := by
  unfold prefilterTasks
  rw [prefilter_noskip fe force _ _ (skip_unreachable fe comics force)]
  simp

theorem worker_error_eq (fs : String → FsEntry) (t : Nat × String) :
    (_thumbnail_worker fs t).error = !(process_cover fs t.2).success := by
  cases hs : (process_cover fs t.2).success <;> simp [_thumbnail_worker, hs]

/-- The parallel pipeline's stats, in closed form, for any arrival order of the
worker payloads. -/
theorem process_missing_thumbnails_parallel_eq (fs : String → FsEntry)
    (fileExists : String → Bool) (comics : List Comic) (force : Bool)
    (arrival : List Payload) (hp : arrival.Perm (workerPayloads fs fileExists comics force)) :
    process_missing_thumbnails_parallel fileExists comics force arrival =
      ⟨(_get_target_comics comics force).countP
          (fun c => (process_cover fs c.file_path).success),
        (_get_target_comics comics force).countP
          (fun c => !(process_cover fs c.file_path).success),
        0⟩ := by
  unfold process_missing_thumbnails_parallel _thumbnail_writer
  rw [hp.countP_eq, hp.countP_eq]
  unfold workerPayloads
  rw [prefilterTasks_eq fileExists comics force]
  simp only [List.map_map]
  rw [List.countP_map, List.countP_map]
  have h1 : ((fun pl : Payload => !pl.error) ∘
      ((_thumbnail_worker fs) ∘ fun c : Comic => (c.id, c.file_path))) =
      fun c : Comic => (process_cover fs c.file_path).success := by
    funext c
    simp [Function.comp, worker_error_eq]
  have h2 : ((fun pl : Payload => pl.error) ∘
      ((_thumbnail_worker fs) ∘ fun c : Comic => (c.id, c.file_path))) =
      fun c : Comic => !(process_cover fs c.file_path).success := by
    funext c
    simp [Function.comp, worker_error_eq]
  rw [h1, h2]
  rw [prefilterTasks_eq fileExists comics force]

/-- Claim C2: in both execution modes the stats conserve the candidate count —
`processed + errors + skipped = |candidates|` — for every input library state
and every arrival order of the parallel workers' results; no per-item failure
removes an item from the accounting (each candidate lands in exactly one
bucket). -/
theorem C2_stats_conservation :
    ∀ (fs : String → FsEntry) (fileExists : String → Bool) (comics : List Comic)
      (force : Bool),
      ((process_missing_thumbnails fs fileExists comics force).processed +
        (process_missing_thumbnails fs fileExists comics force).errors +
        (process_missing_thumbnails fs fileExists comics force).skipped =
        (_get_target_comics comics force).length) ∧
      (∀ arrival : List Payload,
        arrival.Perm (workerPayloads fs fileExists comics force) →
        (process_missing_thumbnails_parallel fileExists comics force arrival).processed +
          (process_missing_thumbnails_parallel fileExists comics force arrival).errors +
          (process_missing_thumbnails_parallel fileExists comics force arrival).skipped =
          (_get_target_comics comics force).length) := by
  intro fs fileExists comics force
  constructor
  · rw [process_missing_thumbnails_eq fs fileExists comics force]
    simpa using countP_add_countP_not
      (fun c => (process_cover fs c.file_path).success) (_get_target_comics comics force)
  · intro arrival hp
    rw [process_missing_thumbnails_parallel_eq fs fileExists comics force arrival hp]
    simpa using countP_add_countP_not
      (fun c => (process_cover fs c.file_path).success) (_get_target_comics comics force)

/-- Witness for C2: a two-comic library with one corrupted source conserves the
count in both modes (the parallel run taking the canonical arrival order). -/
theorem C2_stats_conservation_witness :
    ((process_missing_thumbnails
        (fun p => if p = "bad" then FsEntry.corrupt
          else FsEntry.archive [("x.jpg", (⟨10, .image ⟨100, 100, .RGB, 0, false⟩⟩ : Bytes))])
        (fun _ => false) [⟨1, "good", none, none⟩, ⟨2, "bad", none, none⟩] false).processed +
      (process_missing_thumbnails
        (fun p => if p = "bad" then FsEntry.corrupt
          else FsEntry.archive [("x.jpg", (⟨10, .image ⟨100, 100, .RGB, 0, false⟩⟩ : Bytes))])
        (fun _ => false) [⟨1, "good", none, none⟩, ⟨2, "bad", none, none⟩] false).errors +
      (process_missing_thumbnails
        (fun p => if p = "bad" then FsEntry.corrupt
          else FsEntry.archive [("x.jpg", (⟨10, .image ⟨100, 100, .RGB, 0, false⟩⟩ : Bytes))])
        (fun _ => false) [⟨1, "good", none, none⟩, ⟨2, "bad", none, none⟩] false).skipped =
      (_get_target_comics [⟨1, "good", none, none⟩, ⟨2, "bad", none, none⟩] false).length) :=
  (C2_stats_conservation
    (fun p => if p = "bad" then FsEntry.corrupt
      else FsEntry.archive [("x.jpg", (⟨10, .image ⟨100, 100, .RGB, 0, false⟩⟩ : Bytes))])
    (fun _ => false) [⟨1, "good", none, none⟩, ⟨2, "bad", none, none⟩] false).1

set_option maxRecDepth 8000 in
/-- Claim C1: with `k` corrupted candidates among the selected comics (and the
rest valid), both modes report exactly `k` errors, `N - k` processed, nothing
skipped; in particular a parallel run over 100 candidates with 2 corrupted
sources returns `{processed := 98, errors := 2, skipped := 0}`. -/
theorem C1_fault_isolation :
    (∀ (fs : String → FsEntry) (fileExists : String → Bool) (comics : List Comic)
      (force : Bool) (k : Nat),
      (_get_target_comics comics force).countP
        (fun c => !(process_cover fs c.file_path).success) = k →
      process_missing_thumbnails fs fileExists comics force =
        ⟨(_get_target_comics comics force).length - k, k, 0⟩ ∧
      (∀ arrival : List Payload,
        arrival.Perm (workerPayloads fs fileExists comics force) →
        process_missing_thumbnails_parallel fileExists comics force arrival =
          ⟨(_get_target_comics comics force).length - k, k, 0⟩)) ∧
    process_missing_thumbnails_parallel (fun _ => false)
      ((List.range 100).map (fun i => ⟨i, if i < 2 then "bad" else "good", none, none⟩)) false
      (workerPayloads
        (fun p => if p = "bad" then FsEntry.corrupt
          else FsEntry.archive [("x.jpg", (⟨10, .image ⟨100, 100, .RGB, 0, false⟩⟩ : Bytes))])
        (fun _ => false)
        ((List.range 100).map (fun i => ⟨i, if i < 2 then "bad" else "good", none, none⟩))
        false) =
      ⟨98, 2, 0⟩ := by
  constructor
  · intro fs fileExists comics force k hk
    have hsum := countP_add_countP_not
      (fun c => (process_cover fs c.file_path).success) (_get_target_comics comics force)
    rw [hk] at hsum
    have hproc : (_get_target_comics comics force).countP
        (fun c => (process_cover fs c.file_path).success) =
        (_get_target_comics comics force).length - k := by omega
    constructor
    · rw [process_missing_thumbnails_eq fs fileExists comics force, hproc, hk]
    · intro arrival hp
      rw [process_missing_thumbnails_parallel_eq fs fileExists comics force arrival hp,
        hproc, hk]
  · decide

/-- Witness for C1: three candidates, one corrupted — both modes yield
`{processed := 2, errors := 1, skipped := 0}`. -/
theorem C1_fault_isolation_witness :
    process_missing_thumbnails
      (fun p => if p = "bad" then FsEntry.corrupt
        else FsEntry.archive [("x.jpg", (⟨10, .image ⟨100, 100, .RGB, 0, false⟩⟩ : Bytes))])
      (fun _ => false)
      [⟨1, "good", none, none⟩, ⟨2, "bad", none, none⟩, ⟨3, "good", none, none⟩] false =
      ⟨2, 1, 0⟩ ∧
    process_missing_thumbnails_parallel (fun _ => false)
      [⟨1, "good", none, none⟩, ⟨2, "bad", none, none⟩, ⟨3, "good", none, none⟩] false
      (workerPayloads
        (fun p => if p = "bad" then FsEntry.corrupt
          else FsEntry.archive [("x.jpg", (⟨10, .image ⟨100, 100, .RGB, 0, false⟩⟩ : Bytes))])
        (fun _ => false)
        [⟨1, "good", none, none⟩, ⟨2, "bad", none, none⟩, ⟨3, "good", none, none⟩] false) =
      ⟨2, 1, 0⟩ :=
  ⟨(C1_fault_isolation.1
      (fun p => if p = "bad" then FsEntry.corrupt
        else FsEntry.archive [("x.jpg", (⟨10, .image ⟨100, 100, .RGB, 0, false⟩⟩ : Bytes))])
      (fun _ => false)
      [⟨1, "good", none, none⟩, ⟨2, "bad", none, none⟩, ⟨3, "good", none, none⟩] false 1
      (by decide)).1,
   (C1_fault_isolation.1
      (fun p => if p = "bad" then FsEntry.corrupt
        else FsEntry.archive [("x.jpg", (⟨10, .image ⟨100, 100, .RGB, 0, false⟩⟩ : Bytes))])
      (fun _ => false)
      [⟨1, "good", none, none⟩, ⟨2, "bad", none, none⟩, ⟨3, "good", none, none⟩] false 1
      (by decide)).2 _ (List.Perm.refl _)⟩

end Parker
